import Mathlib

/-!
Verification of the in-memory virtual filesystem of kube-compose
(internal/pkg/fs/fs.go): the node tree, path resolution (findHelper),
tree building (createChildren, Set) and file descriptors (Read, Readdir,
Open, Stat).

Conventions of the shallow embedding:

* Go strings are modelled as `List Char`; the byte-level operations of the
  source (strings.IndexByte, slicing, concatenation) become list
  operations (`splitSlash` packages IndexByte together with the two
  slicings "name component" and "rest after the slash").
* Go error values are modelled by the inductive type `Err`.  The
  caller-injected error values (the `Error` field of `VirtualFile`) are
  arbitrary fresh error objects in Go; they are modelled as the opaque
  family `Err.injected id`, distinct from every error the package itself
  creates.
* A Go panic is distinguished from a returned error: operations whose Go
  counterpart can panic surface the panic value through a `panicked`
  outcome (`Res.panicked`) or, for `Set` which returns nothing in Go,
  through `some e` in the second component of the result.
* The Go node struct stores its payload in a field `extra interface{}`
  holding either `[]byte` (regular-file content or symlink target) or
  `[]*node` (directory children).  The embedding splits `extra` into the
  two fields `content` and `children`; the source's type assertions
  (`extra.([]byte)`, `extra.([]*node)`) are performed only behind the
  corresponding mode checks, so the split is behaviour-preserving.
* The Go code mutates nodes in place through pointers returned by `find`.
  The embedding is functional: `findHelper` additionally records the
  access path (the list of child names from the root to the current
  node), and `Set` rebuilds the tree along that path with `updateAtPath`.
  The `path` field is an artifact of the functional embedding, not a
  field of the source struct.
* `findHelper.run` is a loop whose termination measure (symlink budget,
  length of the remaining name) is not structural; it is embedded as the
  fuelled function `runF`, and `find` invokes it with the fuel
  `findFuel`, which is large enough that the fuel never runs out (this
  is proved as part of the termination claim below).
-/

namespace KubeComposeFs

/-- The error values created by fs.go (errBadMode, errIsDirDisagreement,
errTooManyLinks, syscall.ENOTDIR, os.ErrNotExist, io.EOF, the panic value
of validateNameComp and the panic value of Readdir), plus the opaque
family of caller-injected error values. -/
inductive Err where
  | enotdir
  | notExist
  | tooManyLinks
  | badMode
  | isDirDisagreement
  | eof
  | notSupported
  | invalidNameComp
  | injected (id : Nat)
deriving DecidableEq, Repr

/-- os.ModeDir (bit 31 of the 32-bit FileMode). -/
def ModeDir : Nat := 2 ^ 31

/-- os.ModeSymlink (bit 27). -/
def ModeSymlink : Nat := 2 ^ 27

/-- os.ModeNamedPipe (bit 25). -/
def ModeNamedPipe : Nat := 2 ^ 25

/-- os.ModeSocket (bit 24). -/
def ModeSocket : Nat := 2 ^ 24

/-- os.ModeDevice (bit 26). -/
def ModeDevice : Nat := 2 ^ 26

/-- os.ModeCharDevice (bit 21). -/
def ModeCharDevice : Nat := 2 ^ 21

/-- os.ModeIrregular (bit 19). -/
def ModeIrregular : Nat := 2 ^ 19

/-- os.ModeType = ModeDir | ModeSymlink | ModeNamedPipe | ModeSocket |
ModeDevice | ModeCharDevice | ModeIrregular. -/
def ModeType : Nat :=
  ModeDir ||| ModeSymlink ||| ModeNamedPipe ||| ModeSocket ||| ModeDevice |||
    ModeCharDevice ||| ModeIrregular

/-- os.FileMode.IsDir: m & ModeDir != 0. -/
def isDirMode (m : Nat) : Bool := m &&& ModeDir != 0

/-- os.FileMode.IsRegular: m & ModeType == 0. -/
def isRegularMode (m : Nat) : Bool := m &&& ModeType == 0

/-- The node struct of fs.go: name, mode, injected error and the payload
(the `extra interface{}` field, split here into `content` for []byte
payloads and `children` for []*node payloads as explained in the header
comment). -/
inductive Node where
  | mk (name : List Char) (mode : Nat) (err : Option Err)
      (content : List Char) (children : List Node)

/-- Field accessor for `Node.mk`. -/
def Node.name : Node → List Char
  | mk nm _ _ _ _ => nm

/-- Field accessor for `Node.mk`. -/
def Node.mode : Node → Nat
  | mk _ m _ _ _ => m

/-- Field accessor for `Node.mk`. -/
def Node.err : Node → Option Err
  | mk _ _ e _ _ => e

/-- Field accessor for `Node.mk`. -/
def Node.content : Node → List Char
  | mk _ _ _ c _ => c

/-- Field accessor for `Node.mk`. -/
def Node.children : Node → List Node
  | mk _ _ _ _ cs => cs

/-- Modelled from the spec: the node helper `dirLookup` is not under
src/; per the spec, directory children are an ordered sequence with
unique names and lookups are case-sensitive exact-match.  This is the
lookup over a child list (first match). -/
def dirLookupList (nm : List Char) : List Node → Option Node
  | [] => none
  | c :: cs => if c.name = nm then some c else dirLookupList nm cs

/-- Modelled from the spec: node.dirLookup, exact-match lookup of a name
among the node's children. -/
def Node.dirLookup (n : Node) (nm : List Char) : Option Node :=
  dirLookupList nm n.children

/-- Modelled from the spec: node.dirAppend is not under src/; per the
spec, directory children are kept in insertion order, so appending places
the new child at the end of the ordered child list. -/
def Node.dirAppend : Node → Node → Node
  | mk nm m e c cs, childN => mk nm m e c (cs ++ [childN])

/-- Modelled from the spec: newDirNode is not under src/.  Per the spec a
node built by it is a Directory (the root "is always a Directory", and
createChildren uses it for the default intermediate directories), so the
directory bit is set in addition to the given mode; the payload is an
empty child list and there is no injected error. -/
def newDirNode (mode : Nat) (name : List Char) : Node :=
  Node.mk name (mode ||| ModeDir) none [] []

/-- validateNameComp of fs.go; `some e` models the panic. -/
def validateNameComp (nameComp : List Char) : Option Err :=
  if nameComp = ['.'] ∨ nameComp = ['.', '.'] then
    some Err.invalidNameComp
  else none

/-- strings.IndexByte(nameRem, byte of the separator) combined with the two
slicings the source performs with the returned position
(findHelper.getNameComp and findHelper.updateNameRemFromSlashPos): the
first component is nameRem up to the first slash (all of nameRem when
there is no slash), the second is the rest after the first slash (`none`
when there is no slash). -/
def splitSlash : List Char → List Char × Option (List Char)
  | [] => ([], none)
  | c :: cs =>
    if c = '/' then ([], some cs)
    else
      let p := splitSlash cs
      (c :: p.1, p.2)

/-- The decomposition of a name into its slash-separated components (the
sequence of name components the loops of run and createChildren extract
with splitSlash); `splitComps [] = [[]]`, matching the final empty
component of a name ending in a separator. -/
def splitComps : List Char → List (List Char)
  | [] => [[]]
  | c :: cs =>
    if c = '/' then [] :: splitComps cs
    else
      match splitComps cs with
      | [] => [[c]]
      | a :: r => (c :: a) :: r

/-- The VirtualFile struct of fs.go.  The injected `Error` field is an
opaque caller-chosen error value, modelled by its identifier. -/
structure VirtualFile where
  content : List Char
  mode : Nat
  error : Option Nat
deriving DecidableEq, Repr

/-- The injected error value of a VirtualFile as an `Err`. -/
def VirtualFile.errVal (vfile : VirtualFile) : Option Err :=
  vfile.error.map Err.injected

/-- The VirtualFileSystem struct of fs.go: a cwd prefix and a root node. -/
structure VirtualFileSystem where
  cwd : List Char
  root : Node

/-- VirtualFileSystem.abs of fs.go. -/
def VirtualFileSystem.abs (fs : VirtualFileSystem) (name : List Char) : List Char :=
  match name with
  | [] => fs.cwd ++ name
  | c :: _ => if c ≠ '/' then fs.cwd ++ name else name

/-- Outcome of an operation whose Go counterpart either succeeds, returns
an error, or panics. -/
inductive Res (α : Type) where
  | ok (a : α)
  | fsErr (e : Err)
  | panicked (e : Err)
deriving DecidableEq, Repr

/-- Outcome of findHelper.run: success, a returned error, or a panic
propagating out of validateNameComp. -/
inductive RunRes where
  | ok
  | fsErr (e : Err)
  | panicked (e : Err)
deriving DecidableEq, Repr

/-- The findHelper struct of fs.go.  The `fs` back-pointer is passed
separately (as the root node) to the functions that need it; the extra
field `path` records the child names leading from the root to `n`, an
artifact of the functional embedding used by Set to write the mutation
back into the tree. -/
structure FindHelper where
  ignoreInjectedFaults : Bool
  links : Nat
  nameRem : List Char
  n : Node
  resolveSymlinks : Bool
  path : List (List Char)

/-- The injected-fault check run performs on the current node:
`!f.ignoreInjectedFaults && f.n.err != nil`. -/
def FindHelper.faultCheck (f : FindHelper) : Option Err :=
  if f.ignoreInjectedFaults then none else f.n.err

/-- findHelper.getChildN of fs.go; the panic of validateNameComp becomes
`Res.panicked`. -/
def FindHelper.getChildN (f : FindHelper) (nameComp : List Char) : Res (Option Node) :=
  if nameComp ≠ [] then
    match validateNameComp nameComp with
    | some e => Res.panicked e
    | none =>
      if f.n.mode &&& ModeDir = 0 then Res.fsErr Err.enotdir
      else
        match f.n.dirLookup nameComp with
        | none => Res.fsErr Err.notExist
        | some childN => Res.ok (some childN)
  else Res.ok none

/-- findHelper.updateFromChildN of fs.go.  On a symlink child with
resolution requested the link counter is bumped (error past 255) and the
target is spliced in front of the remaining name, re-rooting at the root
for an absolute target; on a symlink child without resolution nothing
changes; on a non-symlink child the current node becomes the child. -/
def FindHelper.updateFromChildN (root : Node) (f : FindHelper) (childN : Node) :
    Except Err FindHelper :=
  if childN.mode &&& ModeSymlink ≠ 0 then
    if f.resolveSymlinks then
      let lks := f.links + 1
      if lks > 255 then Except.error Err.tooManyLinks
      else
        match childN.content with
        | [] => Except.ok { f with links := lks, nameRem := '/' :: f.nameRem }
        | t0 :: ts =>
          if t0 = '/' then
            Except.ok { f with links := lks, n := root, path := [], nameRem := ts ++ '/' :: f.nameRem }
          else
            Except.ok { f with links := lks, nameRem := (t0 :: ts) ++ '/' :: f.nameRem }
    else Except.ok f
  else Except.ok { f with n := childN, path := f.path ++ [childN.name] }

/-- findHelper.run of fs.go, with explicit fuel (`none` = fuel ran out;
find passes enough fuel that this never happens).  The case of a
non-empty component whose child lookup returned no node cannot arise
(getChildN errors instead); it falls into the catch-all continue branch,
mirroring the fact that the Go code never reaches updateFromChildN with a
nil child. -/
def runF (root : Node) : Nat → FindHelper → Option (FindHelper × RunRes)
  | 0, _ => none
  | fuel + 1, f =>
    match f.nameRem with
    | [] =>
      match f.faultCheck with
      | some e => some (f, RunRes.fsErr e)
      | none => some (f, RunRes.ok)
    | _ :: _ =>
      match f.faultCheck with
      | some e => some (f, RunRes.fsErr e)
      | none =>
        let sp := splitSlash f.nameRem
        match f.getChildN sp.1 with
        | Res.panicked e => some (f, RunRes.panicked e)
        | Res.fsErr e => some (f, RunRes.fsErr e)
        | Res.ok childNOpt =>
          let f1 := { f with nameRem := sp.2.getD [] }
          match sp.1, childNOpt with
          | _ :: _, some childN =>
            match f1.updateFromChildN root childN with
            | Except.error e => some (f1, RunRes.fsErr e)
            | Except.ok f2 => runF root fuel f2
          | _, _ => runF root fuel f1

mutual

/-- A size measure on nodes dominating the length of every symlink target
stored anywhere in the tree; used only to compute a sufficient fuel for
runF. -/
def nodeSize : Node → Nat
  | Node.mk _ _ _ c cs => 1 + c.length + nodeListSize cs

/-- Sum of `nodeSize` over a child list. -/
def nodeListSize : List Node → Nat
  | [] => 0
  | n :: ns => nodeSize n + nodeListSize ns

end

/-- The fuel find passes to runF: enough for every walk, since every
iteration either consumes at least one character of the remaining name or
splices in a symlink target (at most 256 splices, each adding at most
`nodeSize root` characters plus a separator). -/
def findFuel (root : Node) (nameRem : List Char) : Nat :=
  nameRem.length + 257 * (nodeSize root + 2) + 1

/-- VirtualFileSystem.find of fs.go. -/
def VirtualFileSystem.find (fs : VirtualFileSystem) (name : List Char)
    (ignoreInjectedFaults resolveSymlinks : Bool) : Option (FindHelper × RunRes) :=
  let nameRem := (fs.abs name).drop 1
  runF fs.root (findFuel fs.root nameRem)
    { ignoreInjectedFaults := ignoreInjectedFaults, links := 0, nameRem := nameRem,
      n := fs.root, resolveSymlinks := resolveSymlinks, path := [] }

/-- The loop body of VirtualFileSystem.createChildren of fs.go, expressed
over the component decomposition of nameRem (the loop extracts exactly
these components with splitSlash): a final non-empty component becomes
the leaf initialized from the VirtualFile, earlier non-empty components
become default directories, empty components are skipped, and a final
empty component just ends the loop.  `some e` in the result models the
panic of validateNameComp; the node returned alongside it contains the
children appended before the panic (the partial mutation the Go code has
already performed). -/
def createChildrenComps (vfile : VirtualFile) : Node → List (List Char) → Node × Option Err
  | n, [] => (n, none)
  | n, [nameComp] =>
    if nameComp ≠ [] then
      match validateNameComp nameComp with
      | some e => (n, some e)
      | none =>
        let childN := Node.mk nameComp vfile.mode vfile.errVal
          (if vfile.mode &&& ModeDir = 0 then vfile.content else []) []
        (n.dirAppend childN, none)
    else (n, none)
  | n, nameComp :: c2 :: rest =>
    if nameComp ≠ [] then
      match validateNameComp nameComp with
      | some e => (n, some e)
      | none =>
        let childN := newDirNode ModeDir nameComp
        let p := createChildrenComps vfile childN (c2 :: rest)
        (n.dirAppend p.1, p.2)
    else createChildrenComps vfile n (c2 :: rest)

/-- VirtualFileSystem.createChildren of fs.go. -/
def createChildren (n : Node) (nameRem : List Char) (vfile : VirtualFile) :
    Node × Option Err :=
  createChildrenComps vfile n (splitComps nameRem)

/-- Writes a replacement node back into the tree at the position recorded
by a FindHelper access path: the functional counterpart of the Go code
mutating the found node through its pointer.  On the trees the package
builds, names are unique within a directory, so replacing every child of
the matching name equals the pointer update of the source. -/
def updateAtPath : Node → List (List Char) → Node → Node
  | _, [], repl => repl
  | n, nm :: rest, repl =>
    Node.mk n.name n.mode n.err n.content
      (n.children.map fun c => if c.name = nm then updateAtPath c rest repl else c)

/-- The switch at the top of VirtualFileSystem.Set choosing the type flag
of the descriptor (ModeDir, ModeSymlink, or 0 for a regular file; 0 also
for the default case of the switch). -/
def setFlag (vfile : VirtualFile) : Nat :=
  if isDirMode vfile.mode then ModeDir
  else if vfile.mode &&& ModeSymlink != 0 then ModeSymlink
  else 0

/-- VirtualFileSystem.Set of fs.go.  The second component models the
panics of Set (errBadMode on an inconsistent descriptor mode,
errIsDirDisagreement on a type conflict) and a panic propagating out of
find or createChildren; the first component is the tree after the
mutations performed before returning or panicking.  The mode check
`vfile.Mode & (os.ModeType &^ flag)` uses that the flag is a single bit
of ModeType (or zero), so the Go and-not equals the exclusive or with
ModeType.  The `none` branch for find is unreachable: with
resolveSymlinks = false no splicing occurs and the fuel cannot run
out. -/
def VirtualFileSystem.Set (fs : VirtualFileSystem) (name : List Char)
    (vfile : VirtualFile) : VirtualFileSystem × Option Err :=
  if vfile.mode &&& (ModeType ^^^ setFlag vfile) ≠ 0 then (fs, some Err.badMode)
  else
    match fs.find name true false with
    | none => (fs, none)
    | some (f, res) =>
      match res with
      | RunRes.panicked e => (fs, some e)
      | RunRes.fsErr Err.enotdir => (fs, some Err.isDirDisagreement)
      | _ =>
        if f.nameRem ≠ [] then
          let p := createChildren f.n f.nameRem vfile
          ({ fs with root := updateAtPath fs.root f.path p.1 }, p.2)
        else
          let nodeIsDir : Bool := f.n.mode &&& ModeDir != 0
          let vfileIsDir : Bool := vfile.mode &&& ModeDir != 0
          if nodeIsDir != vfileIsDir then (fs, some Err.isDirDisagreement)
          else
            let n1 := Node.mk f.n.name vfile.mode vfile.errVal
              (if vfileIsDir then f.n.content else vfile.content) f.n.children
            ({ fs with root := updateAtPath fs.root f.path n1 }, none)

/-- The virtualFileDescriptor struct of fs.go. -/
structure virtualFileDescriptor where
  node : Node
  readPos : Nat

/-- virtualFileDescriptor.Close of fs.go. -/
def virtualFileDescriptor.Close (_ : virtualFileDescriptor) : Option Err := none

/-- virtualFileDescriptor.Read of fs.go, for a buffer of length pLen: the
result is the transferred bytes (the copy into the buffer), the
descriptor with its advanced read position, and the error. -/
def virtualFileDescriptor.Read (r : virtualFileDescriptor) (pLen : Nat) :
    List Char × virtualFileDescriptor × Option Err :=
  if ¬ isRegularMode r.node.mode then ([], r, some Err.badMode)
  else if 0 < pLen then
    let fileContents := r.node.content
    let bytes := (fileContents.drop r.readPos).take pLen
    let r1 := { r with readPos := r.readPos + bytes.length }
    if bytes.length = 0 then ([], r1, some Err.eof) else (bytes, r1, none)
  else ([], r, none)

/-- virtualFileDescriptor.Readdir of fs.go; the count is a Go int and the
panic on a positive count is modelled by `Res.panicked`.  The entries are
the child nodes themselves (each node is the os.FileInfo the source
returns); returning the child list also covers the source's nil result
for an empty directory. -/
def virtualFileDescriptor.Readdir (r : virtualFileDescriptor) (n : Int) :
    Res (List Node) :=
  if ¬ isDirMode r.node.mode then Res.fsErr Err.enotdir
  else if 0 < n then Res.panicked Err.notSupported
  else Res.ok r.node.children

/-- VirtualFileSystem.Open of fs.go. -/
def VirtualFileSystem.Open (fs : VirtualFileSystem) (name : List Char) :
    Option (Res virtualFileDescriptor) :=
  match fs.find name false true with
  | none => none
  | some (f, RunRes.ok) => some (Res.ok { node := f.n, readPos := 0 })
  | some (_, RunRes.fsErr e) => some (Res.fsErr e)
  | some (_, RunRes.panicked e) => some (Res.panicked e)

/-- VirtualFileSystem.Stat of fs.go. -/
def VirtualFileSystem.Stat (fs : VirtualFileSystem) (name : List Char) :
    Option (Res Node) :=
  match fs.find name false true with
  | none => none
  | some (f, RunRes.ok) => some (Res.ok f.n)
  | some (_, RunRes.fsErr e) => some (Res.fsErr e)
  | some (_, RunRes.panicked e) => some (Res.panicked e)

/-- The empty virtual file system NewVirtualFileSystem starts from before
applying Set for each entry of its data map: cwd "/" and a fresh root
directory named "/". -/
def emptyVFS : VirtualFileSystem :=
  { cwd := ['/'], root := newDirNode 0 ['/'] }

/-- The loop of NewVirtualFileSystem applying Set for every entry. -/
def newVFSFold (fs : VirtualFileSystem) :
    List (List Char × VirtualFile) → VirtualFileSystem × Option Err
  | [] => (fs, none)
  | (name, vfile) :: rest =>
    match fs.Set name vfile with
    | (fs1, none) => newVFSFold fs1 rest
    | (fs1, some e) => (fs1, some e)

/-- NewVirtualFileSystem of fs.go over an association list (Go map
iteration order is unspecified, so the construction is over a list of
entries); each entry is applied with Set as in the source.  A panic in
Set aborts the construction with the partially built tree. -/
def NewVirtualFileSystem (data : List (List Char × VirtualFile)) :
    VirtualFileSystem × Option Err :=
  newVFSFold emptyVFS data

/-! ### Example descriptors, trees and handles used by the theorems -/

/-- A regular-file descriptor with the given content. -/
def regDesc (c : List Char) : VirtualFile :=
  { content := c, mode := 0, error := none }

/-- A symlink descriptor with the given target. -/
def symlinkDesc (t : List Char) : VirtualFile :=
  { content := t, mode := ModeSymlink, error := none }

/-- A directory descriptor. -/
def dirDesc : VirtualFile :=
  { content := [], mode := ModeDir, error := none }

/-- A regular-file descriptor carrying an injected error. -/
def errRegDesc (c : List Char) (id : Nat) : VirtualFile :=
  { content := c, mode := 0, error := some id }

/-- A directory descriptor carrying an injected error. -/
def errDirDesc (id : Nat) : VirtualFile :=
  { content := [], mode := ModeDir, error := some id }

/-- The tree of the concrete scenario of the spec:
`{"/dir/file.txt": {Content: "hello", Mode: RegularFile}}`. -/
def fsDirFile : VirtualFileSystem :=
  (emptyVFS.Set ("/dir/file.txt".toList) (regDesc ("hello".toList))).1

/-- A tree holding a single symlink `/x -> /y`. -/
def fsSymX : VirtualFileSystem :=
  (emptyVFS.Set ("/x".toList) (symlinkDesc ("/y".toList))).1

/-- A tree where `/a/b` is a regular file. -/
def fsAB : VirtualFileSystem :=
  (emptyVFS.Set ("/a/b".toList) (regDesc ("zz".toList))).1

/-- The symlink cycle `/x -> /y`, `/y -> /x`. -/
def fsCycle : VirtualFileSystem :=
  ((emptyVFS.Set ("/x".toList) (symlinkDesc ("/y".toList))).1.Set
    ("/y".toList) (symlinkDesc ("/x".toList))).1

/-- Projection extracting the descriptor of a successful Open (used to
name concrete handles in theorem statements). -/
def getOpened (o : Option (Res virtualFileDescriptor)) : virtualFileDescriptor :=
  match o with
  | some (Res.ok d) => d
  | _ => { node := emptyVFS.root, readPos := 0 }

/-- Projection extracting the helper state of a find result. -/
def getFound (o : Option (FindHelper × RunRes)) : FindHelper :=
  match o with
  | some (f, _) => f
  | none =>
    { ignoreInjectedFaults := true, links := 0, nameRem := [], n := emptyVFS.root,
      resolveSymlinks := false, path := [] }

/-- The handle of `Open("/dir")` on the concrete scenario tree. -/
def dirHandle : virtualFileDescriptor :=
  getOpened (fsDirFile.Open ("/dir".toList))

/-- The handle of `Open("/dir/file.txt")` on the concrete scenario tree. -/
def fileHandle : virtualFileDescriptor :=
  getOpened (fsDirFile.Open ("/dir/file.txt".toList))

/-- A tree where the intermediate directory /a carries injected error 9
and /a/b is a plain regular file. -/
def fsErrMid : VirtualFileSystem :=
  ((emptyVFS.Set ("/a".toList) (errDirDesc 9)).1.Set
    ("/a/b".toList) (regDesc ("w".toList))).1

/-- A tree where /t is an error-free regular file "hi" and /s is a
symlink to /t carrying injected error 5. -/
def fsSymErr : VirtualFileSystem :=
  ((emptyVFS.Set ("/t".toList) (regDesc ("hi".toList))).1.Set
    ("/s".toList)
    { content := ("/t".toList), mode := ModeSymlink, error := some 5 }).1

/-- Observable view of a Stat result: the fields of the returned node
when the call succeeded, nothing otherwise. -/
def statView : Option (Res Node) →
    Option (List Char × Nat × Option Err × List Char)
  | some (Res.ok n) => some (n.name, n.mode, n.err, n.content)
  | _ => none

/-- Observable view of an Open result: the fields of the node behind the
returned descriptor and its read position when the call succeeded,
nothing otherwise. -/
def openView : Option (Res virtualFileDescriptor) →
    Option (List Char × Nat × Option Err × List Char × Nat)
  | some (Res.ok d) =>
    some (d.node.name, d.node.mode, d.node.err, d.node.content, d.readPos)
  | _ => none

/-- A tree where the terminal node /a/b carries injected error 7. -/
def fsErrEnd : VirtualFileSystem :=
  (emptyVFS.Set ("/a/b".toList) (errRegDesc ("w".toList) 7)).1

/-- A descriptor positioned at the end of a two-byte regular file. -/
def dAtEnd : virtualFileDescriptor :=
  { node := Node.mk [] 0 none ("ab".toList) [], readPos := 2 }

/-- A descriptor over a directory node. -/
def dOnDir : virtualFileDescriptor :=
  { node := newDirNode 0 [], readPos := 0 }

/-- Reading a handle to completion with buffers of length b: repeat Read
and concatenate the transferred bytes until a read reports an error (the
end-of-data signal); the fuel bounds the number of rounds. -/
def readToEnd (b : Nat) : Nat → virtualFileDescriptor → List Char
  | 0, _ => []
  | fuel + 1, r =>
    match r.Read b with
    | (bytes, r1, none) => bytes ++ readToEnd b fuel r1
    | (_, _, some _) => []

/-- The helper state of the resolution of "/dir/file.txt" on the concrete
scenario tree. -/
def fileFound : FindHelper :=
  getFound (fsDirFile.find ("/dir/file.txt".toList) false true)

/-! ### Supporting lemmas -/

/-- Dropping as many elements as a take returned equals dropping the take
bound itself. -/
theorem drop_length_take (b : Nat) (l : List Char) :
    List.drop ((List.take b l).length) l = List.drop b l := by
  rcases le_total b l.length with h | h
  · simp [List.length_take, Nat.min_eq_left h]
  · rw [List.length_take, Nat.min_eq_right h, List.drop_eq_nil_of_le h,
      List.drop_eq_nil_of_le (le_refl l.length)]

/-- Reading to completion from position p of a regular node with a
non-empty buffer yields exactly the content from p on, provided the fuel
exceeds the number of missing bytes. -/
theorem readToEnd_eq_drop (nd : Node) (hreg : isRegularMode nd.mode = true)
    (b : Nat) (hb : 0 < b) :
    ∀ (fuel p : Nat), nd.content.length - p < fuel →
      readToEnd b fuel { node := nd, readPos := p } = nd.content.drop p := by
  intro fuel
  induction fuel with
  | zero => intro p h; omega
  | succ fuel ih =>
    intro p h
    by_cases hp : nd.content.length ≤ p
    · have hdrop : nd.content.drop p = [] := List.drop_eq_nil_of_le hp
      simp [readToEnd, virtualFileDescriptor.Read, hreg, hb, hdrop]
    · push_neg at hp
      have hlen : ((nd.content.drop p).take b).length = min b (nd.content.length - p) := by
        simp [List.length_take, List.length_drop]
      have hne : ¬ ((nd.content.drop p).take b).length = 0 := by omega
      have hread : virtualFileDescriptor.Read { node := nd, readPos := p } b =
          ((nd.content.drop p).take b,
            { node := nd, readPos := p + ((nd.content.drop p).take b).length },
            none) := by
        simp [virtualFileDescriptor.Read, hreg, hb, hne]
        exact ⟨by omega, by omega⟩
      have hih := ih (p + ((nd.content.drop p).take b).length) (by omega)
      simp only [readToEnd]
      rw [hread]
      simp only []
      rw [hih]
      rw [← List.drop_drop, drop_length_take, List.take_append_drop]

/-! ### Tree membership and size bounds (for fuel sufficiency) -/

/-- The nodes reachable from a root by following child edges: the nodes a
pointer in the Go walk can refer to. -/
inductive InTree (root : Node) : Node → Prop where
  | base : InTree root root
  | child {k m : Node} : InTree root k → m ∈ k.children → InTree root m

/-- A member of a child list contributes to the list size. -/
theorem nodeSize_le_of_mem {m : Node} : ∀ {cs : List Node}, m ∈ cs →
    nodeSize m ≤ nodeListSize cs := by
  intro cs h
  induction cs with
  | nil => cases h
  | cons c cs ih =>
    rcases List.mem_cons.mp h with rfl | h2
    · simp [nodeListSize]
    · have := ih h2
      simp [nodeListSize]
      omega

/-- The children and the content of a node are counted inside its size. -/
theorem children_content_lt_nodeSize (n : Node) :
    nodeListSize n.children + n.content.length < nodeSize n := by
  cases n with
  | mk nm m e c cs => simp [nodeSize, Node.children, Node.content]; omega

/-- Every node of the tree is at most as large as the root. -/
theorem nodeSize_le_root {root m : Node} (h : InTree root m) :
    nodeSize m ≤ nodeSize root := by
  induction h with
  | base => exact le_refl _
  | @child k m2 hk hm ih =>
    have h1 := nodeSize_le_of_mem hm
    have h2 := children_content_lt_nodeSize k
    omega

/-- The content of a tree node is shorter than the size of the root. -/
theorem content_lt_root {root m : Node} (h : InTree root m) :
    m.content.length < nodeSize root := by
  have h1 := children_content_lt_nodeSize m
  have h2 := nodeSize_le_root h
  omega

/-- dirLookup only returns members of the child list. -/
theorem dirLookupList_mem {nm : List Char} {m : Node} : ∀ {cs : List Node},
    dirLookupList nm cs = some m → m ∈ cs := by
  intro cs h
  induction cs with
  | nil => simp [dirLookupList] at h
  | cons c cs ih =>
    by_cases hc : c.name = nm
    · simp [dirLookupList, hc] at h
      simp [h]
    · simp [dirLookupList, hc] at h
      exact List.mem_cons_of_mem _ (ih h)

/-- A successful child lookup of getChildN stays inside the tree. -/
theorem getChildN_inTree {root : Node} {f : FindHelper} {nameComp : List Char}
    {c : Node} (hf : InTree root f.n)
    (h : f.getChildN nameComp = Res.ok (some c)) : InTree root c := by
  unfold FindHelper.getChildN at h
  split_ifs at h with h1 h2
  · cases hval : validateNameComp nameComp <;> rw [hval] at h
    · simp at h
    · simp at h
  · cases hval : validateNameComp nameComp <;> rw [hval] at h
    · cases hlook : f.n.dirLookup nameComp <;> rw [hlook] at h
      · simp at h
      · simp at h
        subst h
        exact InTree.child hf (dirLookupList_mem hlook)
    · simp at h
  · simp at h

/-! ### splitSlash length facts -/

/-- When splitSlash finds a slash, the input splits as component, slash,
rest. -/
theorem splitSlash_some : ∀ {l r : List Char}, (splitSlash l).2 = some r →
    l = (splitSlash l).1 ++ '/' :: r := by
  intro l
  induction l with
  | nil => intro r h; simp [splitSlash] at h
  | cons c cs ih =>
    intro r h
    by_cases hc : c = '/'
    · simp [splitSlash, hc] at h ⊢
      exact h
    · simp [splitSlash, hc] at h ⊢
      exact ih h

/-- When splitSlash finds no slash, the component is the whole input. -/
theorem splitSlash_none : ∀ {l : List Char}, (splitSlash l).2 = none →
    (splitSlash l).1 = l := by
  intro l
  induction l with
  | nil => intro h; simp [splitSlash]
  | cons c cs ih =>
    intro h
    by_cases hc : c = '/'
    · simp [splitSlash, hc] at h
    · simp [splitSlash, hc] at h ⊢
      exact ih h

/-- Advancing past the first component strictly shrinks a non-empty
remaining name. -/
theorem splitSlash_rest_lt {l : List Char} (hl : l ≠ []) :
    ((splitSlash l).2.getD []).length < l.length := by
  cases h2 : (splitSlash l).2 with
  | none =>
    simp
    exact List.length_pos.mpr hl
  | some r =>
    have := splitSlash_some h2
    simp
    rw [this]
    simp
    omega

/-- The rest after the slash is shorter than the input by the component
and the slash. -/
theorem splitSlash_rest_len {l r : List Char} (h : (splitSlash l).2 = some r) :
    l.length = (splitSlash l).1.length + 1 + r.length := by
  have h2 := congrArg List.length (splitSlash_some h)
  simp at h2
  omega

/-! ### Fuel sufficiency: the walk always terminates -/

/-- The fuel actually needed by runF from a given state. -/
def needFuel (root : Node) (f : FindHelper) : Nat :=
  f.nameRem.length + (256 - f.links) * (nodeSize root + 2) + 1

/-- Case analysis of a successful updateFromChildN: either a plain step
(links and remaining name unchanged; the node stays or becomes the child)
or a splice (links bumped within the bound; the remaining name grows by
at most the child's target plus a separator; the node stays or resets to
the root). -/
theorem updateFromChildN_ok_cases {root : Node} {f : FindHelper} {c : Node}
    {f2 : FindHelper} (h : f.updateFromChildN root c = Except.ok f2) :
    (f2.links = f.links ∧ f2.nameRem = f.nameRem ∧ (f2.n = f.n ∨ f2.n = c)) ∨
    (f.links + 1 ≤ 255 ∧ f2.links = f.links + 1 ∧
      f2.nameRem.length ≤ c.content.length + 1 + f.nameRem.length ∧
      (f2.n = root ∨ f2.n = f.n)) := by
  unfold FindHelper.updateFromChildN at h
  by_cases h1 : c.mode &&& ModeSymlink ≠ 0
  · rw [if_pos h1] at h
    by_cases h2 : f.resolveSymlinks = true
    · rw [if_pos h2] at h
      by_cases h3 : f.links + 1 > 255
      · rw [if_pos h3] at h
        exact absurd h (by simp)
      · rw [if_neg h3] at h
        right
        refine ⟨by omega, ?_⟩
        cases hc : c.content with
        | nil =>
          rw [hc] at h
          simp only [Except.ok.injEq] at h
          subst h
          simp [hc]
          omega
        | cons t0 ts =>
          rw [hc] at h
          simp only [] at h
          split_ifs at h with ht
          · simp only [Except.ok.injEq] at h
            subst h
            simp [hc]
            omega
          · simp only [Except.ok.injEq] at h
            subst h
            simp [hc]
            omega
    · rw [if_neg h2] at h
      simp only [Except.ok.injEq] at h
      subst h
      left
      simp
  · rw [if_neg h1] at h
    simp only [Except.ok.injEq] at h
    subst h
    left
    simp

/-- With fuel at least `needFuel`, runF does not run out of fuel: the
walk of the resolver terminates with a definite outcome on every input
state whose current node lies in the tree. -/
theorem runF_ne_none (root : Node) : ∀ (fuel : Nat) (f : FindHelper),
    InTree root f.n → needFuel root f ≤ fuel → runF root fuel f ≠ none := by
  intro fuel
  induction fuel with
  | zero =>
    intro f _ hle
    unfold needFuel at hle
    omega
  | succ fuel ih =>
    intro f hin hle
    unfold runF
    cases hrem : f.nameRem with
    | nil =>
      cases f.faultCheck <;> simp
    | cons c0 cs =>
      have hlen : f.nameRem.length = (c0 :: cs).length := by rw [hrem]
      have hlt : ((splitSlash (c0 :: cs)).2.getD []).length < (c0 :: cs).length :=
        splitSlash_rest_lt (by simp)
      cases hfc : f.faultCheck with
      | some e => simp
      | none =>
        simp only []
        cases hg : f.getChildN (splitSlash (c0 :: cs)).1 with
        | panicked e => simp
        | fsErr e => simp
        | ok childNOpt =>
          cases hcomp : (splitSlash (c0 :: cs)).1 with
          | nil =>
            cases childNOpt with
            | none =>
              simp only []
              apply ih
              · exact hin
              · unfold needFuel at hle ⊢
                rw [hrem] at hle
                simp
                omega
            | some c =>
              simp only []
              apply ih
              · exact hin
              · unfold needFuel at hle ⊢
                rw [hrem] at hle
                simp
                omega
          | cons d0 ds =>
            cases childNOpt with
            | none =>
              simp only []
              apply ih
              · exact hin
              · unfold needFuel at hle ⊢
                rw [hrem] at hle
                simp
                omega
            | some c =>
              simp only []
              have hcin : InTree root c := getChildN_inTree hin (by rw [hcomp] at hg; exact hg)
              cases hu : FindHelper.updateFromChildN root
                  { f with nameRem := (splitSlash (c0 :: cs)).2.getD [] } c with
              | error e => simp
              | ok f2 =>
                simp only []
                apply ih
                · rcases updateFromChildN_ok_cases hu with ⟨_, _, hn | hn⟩ | ⟨_, _, _, hn | hn⟩ <;>
                    rw [hn] <;> first
                  | exact hin
                  | exact hcin
                  | exact InTree.base
                · have hclen := content_lt_root hcin
                  rcases updateFromChildN_ok_cases hu with ⟨hl2, hr2, _⟩ | ⟨hb2, hl2, hr2, _⟩
                  · have e1 : f2.nameRem.length =
                        ((splitSlash (c0 :: cs)).2.getD []).length := by rw [hr2]
                    have e2 : f2.links = f.links := hl2
                    unfold needFuel at hle ⊢
                    rw [hrem] at hle
                    rw [e1, e2]
                    omega
                  · have b2 : f.links + 1 ≤ 255 := hb2
                    have e2 : f2.links = f.links + 1 := hl2
                    have r2 : f2.nameRem.length ≤ c.content.length + 1 +
                        ((splitSlash (c0 :: cs)).2.getD []).length := hr2
                    unfold needFuel at hle ⊢
                    rw [hrem] at hle
                    rw [e2]
                    have heq : 256 - (f.links + 1) = 255 - f.links := by omega
                    rw [heq]
                    have hmul : (256 - f.links) * (nodeSize root + 2) =
                        (255 - f.links) * (nodeSize root + 2) + (nodeSize root + 2) := by
                      have h256 : 256 - f.links = (255 - f.links) + 1 := by omega
                      rw [h256]
                      ring
                    omega

/-- find never runs out of fuel: every resolution terminates with a
definite outcome. -/
theorem find_isSome (fs : VirtualFileSystem) (name : List Char)
    (ig rs : Bool) : (fs.find name ig rs).isSome := by
  unfold VirtualFileSystem.find
  simp only []
  cases h : runF fs.root (findFuel fs.root ((fs.abs name).drop 1))
      { ignoreInjectedFaults := ig, links := 0, nameRem := (fs.abs name).drop 1,
        n := fs.root, resolveSymlinks := rs, path := [] } with
  | none =>
    exact absurd h (runF_ne_none fs.root _ _ InTree.base (by
      unfold needFuel findFuel
      dsimp only []
      omega))
  | some v => simp

/-! ### Clean walks: stepping through existing non-symlink directories -/

/-- A name without separators is one whole component. -/
theorem splitSlash_no_slash : ∀ {l : List Char}, '/' ∉ l → splitSlash l = (l, none) := by
  intro l h
  induction l with
  | nil => rfl
  | cons c cs ih =>
    have hc : ¬ c = '/' := by
      intro hx
      exact h (by simp [hx])
    have hcs : '/' ∉ cs := fun hx => h (List.mem_cons_of_mem _ hx)
    simp [splitSlash, hc, ih hcs]

/-- Splitting a name that starts with a slash-free component followed by
a separator yields that component and the rest. -/
theorem splitSlash_prefix : ∀ {c : List Char}, '/' ∉ c → ∀ (r : List Char),
    splitSlash (c ++ '/' :: r) = (c, some r) := by
  intro c h
  induction c with
  | nil => intro r; simp [splitSlash]
  | cons a as ih =>
    intro r
    have ha : ¬ a = '/' := by
      intro hx
      exact h (by simp [hx])
    have has : '/' ∉ as := fun hx => h (List.mem_cons_of_mem _ hx)
    simp [splitSlash, ha, ih has]

/-- The name assembled from a list of components, separated by slashes
(the inverse image of splitComps on slash-terminated decompositions). -/
def joinComps : List (List Char) → List Char
  | [] => []
  | [c] => c
  | c :: c2 :: rest => c ++ '/' :: joinComps (c2 :: rest)

/-- A walk through existing, error-free, non-symlink directory entries:
from node n the components lead to node k, every node strictly before k
carries no injected error, every component is non-empty, slash-free and
valid, every intermediate node is a directory, and every matched child is
not a symlink (so the walk advances node by node whatever the resolution
policy). -/
inductive CleanWalkTo : Node → List (List Char) → Node → Prop where
  | nil (n : Node) : CleanWalkTo n [] n
  | cons {n m k : Node} {c : List Char} {cs : List (List Char)}
      (herr : n.err = none) (hc : c ≠ []) (hslash : '/' ∉ c)
      (hval : validateNameComp c = none) (hdir : n.mode &&& ModeDir ≠ 0)
      (hlook : n.dirLookup c = some m) (hsym : m.mode &&& ModeSymlink = 0)
      (hrest : CleanWalkTo m cs k) : CleanWalkTo n (c :: cs) k

/-- One clean iteration of the walk: with no fault on the current node
and a non-empty, valid, slash-free first component naming a non-symlink
child of the current directory, the walk advances onto that child. -/
theorem runF_step_clean (root : Node) (f : FindHelper) (c r : List Char) (m : Node)
    (fuel : Nat) (hfc : f.faultCheck = none) (hc : c ≠ [])
    (hslash : '/' ∉ c) (hval : validateNameComp c = none)
    (hdir : f.n.mode &&& ModeDir ≠ 0) (hlook : f.n.dirLookup c = some m)
    (hsym : m.mode &&& ModeSymlink = 0)
    (hrem : f.nameRem = c ++ '/' :: r ∨ (f.nameRem = c ∧ r = [])) :
    runF root (fuel + 1) f =
      runF root fuel { f with nameRem := r, n := m, path := f.path ++ [m.name] } := by
  have hget : f.getChildN c = Res.ok (some m) := by
    unfold FindHelper.getChildN
    rw [if_pos hc, hval, if_neg hdir, hlook]
  have hupd : FindHelper.updateFromChildN root { f with nameRem := r } m =
      Except.ok { f with nameRem := r, n := m, path := f.path ++ [m.name] } := by
    unfold FindHelper.updateFromChildN
    rw [if_neg (by simpa using hsym)]
  rcases hrem with hrem | ⟨hrem, hr⟩
  · cases c with
    | nil => exact absurd rfl hc
    | cons a as =>
      have h1 : splitSlash (a :: (as ++ '/' :: r)) = (a :: as, some r) := by
        have h2 := splitSlash_prefix hslash r
        simpa using h2
      conv_lhs => rw [runF]
      simp only [hrem, List.cons_append, hfc, h1, hget, hupd, Option.getD_some]
  · subst hr
    cases c with
    | nil => exact absurd rfl hc
    | cons a as =>
      have h1 : splitSlash (a :: as) = (a :: as, none) := splitSlash_no_slash hslash
      conv_lhs => rw [runF]
      simp only [hrem, hfc, h1, hget, hupd, Option.getD_none]

/-- All components of a clean walk are non-empty. -/
theorem cleanWalk_comps_nonempty {n k : Node} {comps : List (List Char)}
    (hw : CleanWalkTo n comps k) : ∀ c ∈ comps, c ≠ [] := by
  induction hw with
  | nil => intro c hmem; cases hmem
  | cons herr hc hslash hval hdir hlook hsym hrest ih =>
    intro d hmem
    rcases List.mem_cons.mp hmem with rfl | hmem2
    · exact hc
    · exact ih d hmem2

/-- A joined name is at least as long as the number of its leading
non-empty components. -/
theorem comps_length_le_joinComps : ∀ (comps rest : List (List Char)),
    (∀ c ∈ comps, c ≠ []) → comps.length ≤ (joinComps (comps ++ rest)).length := by
  intro comps
  induction comps with
  | nil => intro rest h; simp
  | cons c cs ih =>
    intro rest h
    have hc : c ≠ [] := h c (by simp)
    have hclen : 1 ≤ c.length := by
      cases c with
      | nil => exact absurd rfl hc
      | cons a as => simp
    cases hcsr : cs ++ rest with
    | nil =>
      have hcs : cs = [] := by
        cases cs with
        | nil => rfl
        | cons x xs => simp at hcsr
      subst hcs
      have hr : rest = [] := by simpa using hcsr
      subst hr
      simp [joinComps]
      omega
    | cons l0 ls =>
      have h2 := ih rest (fun d hd => h d (List.mem_cons_of_mem _ hd))
      rw [hcsr] at h2
      simp [joinComps, hcsr]
      omega

/-- Along a clean walk whose endpoint carries an injected error, the
fault-checking walk surfaces exactly that error, whatever path remainder
follows the walked components. -/
theorem runF_cleanWalk_err (root : Node) (e : Err) :
    ∀ {n : Node} {comps : List (List Char)} {k : Node}, CleanWalkTo n comps k →
      k.err = some e →
      ∀ (rest : List (List Char)) (f : FindHelper) (fuel : Nat),
        f.n = n → f.nameRem = joinComps (comps ++ rest) →
        f.ignoreInjectedFaults = false → comps.length < fuel →
        ∃ f2, runF root fuel f = some (f2, RunRes.fsErr e) := by
  intro n comps k hw
  induction hw with
  | nil n1 =>
    intro he rest f fuel hfn hrem hig hfuel
    cases fuel with
    | zero => omega
    | succ fuel =>
      have hfc : f.faultCheck = some e := by
        simp [FindHelper.faultCheck, hig, hfn, he]
      refine ⟨f, ?_⟩
      conv_lhs => rw [runF]
      cases hnr : f.nameRem with
      | nil => simp only [hfc]
      | cons c0 cs0 => simp only [hfc]
  | @cons n2 m k2 c cs herr hc hslash hval hdir hlook hsym hrest ih =>
    intro he rest f fuel hfn hrem hig hfuel
    cases fuel with
    | zero => simp at hfuel
    | succ fuel =>
      have hfc : f.faultCheck = none := by
        simp [FindHelper.faultCheck, hig, hfn, herr]
      have hrem2 : f.nameRem = c ++ '/' :: joinComps (cs ++ rest) ∨
          (f.nameRem = c ∧ joinComps (cs ++ rest) = []) := by
        rw [hrem]
        cases hcsr : cs ++ rest with
        | nil => right; simp [joinComps, hcsr]
        | cons l0 ls => left; simp [joinComps, hcsr]
      have hstep := runF_step_clean root f c (joinComps (cs ++ rest)) m fuel hfc hc
        hslash hval (by rw [hfn]; exact hdir) (by rw [hfn]; exact hlook) hsym hrem2
      rw [hstep]
      exact ih he rest _ fuel rfl rfl hig (by simp at hfuel ⊢; omega)

/-! ### Name components of the remaining name -/

/-- splitComps never returns the empty list. -/
theorem splitComps_ne_nil : ∀ (l : List Char), splitComps l ≠ [] := by
  intro l
  induction l with
  | nil => simp [splitComps]
  | cons c cs ih =>
    by_cases hc : c = '/'
    · simp [splitComps, hc]
    · simp only [splitComps, if_neg hc]
      cases h : splitComps cs with
      | nil => simp
      | cons a r => simp

/-- The component decomposition starts with the first splitSlash
component, followed by the decomposition of the rest (empty when there is
no separator). -/
theorem splitComps_eq_splitSlash : ∀ (l : List Char),
    splitComps l = (splitSlash l).1 ::
      (match (splitSlash l).2 with | none => [] | some r => splitComps r) := by
  intro l
  induction l with
  | nil => rfl
  | cons c cs ih =>
    by_cases hc : c = '/'
    · simp [splitComps, splitSlash, hc]
    · simp only [splitComps, splitSlash, if_neg hc]
      rw [ih]

/-- splitComps distributes over a separator between two names. -/
theorem splitComps_append_slash : ∀ (a b : List Char),
    splitComps (a ++ '/' :: b) = splitComps a ++ splitComps b := by
  intro a b
  induction a with
  | nil => simp [splitComps]
  | cons c cs ih =>
    by_cases hc : c = '/'
    · simp only [List.cons_append, splitComps, if_pos hc, List.append_eq]
      rw [ih]
    · simp only [List.cons_append, splitComps, if_neg hc, List.append_eq]
      rw [ih]
      cases h : splitComps cs with
      | nil => exact absurd h (splitComps_ne_nil cs)
      | cons x xs => simp

/-- Whether some component of the name is "." or ".." (would panic in
validateNameComp when reached). -/
def hasDotComp (l : List Char) : Prop :=
  ∃ c ∈ splitComps l, validateNameComp c ≠ none

instance (l : List Char) : Decidable (hasDotComp l) := by
  unfold hasDotComp
  infer_instance

/-- The empty name has no dot component. -/
theorem hasDotComp_nil : ¬ hasDotComp [] := by decide

/-- A name has a dot component exactly when its first component is a dot
or the rest after the first separator has one. -/
theorem hasDotComp_cases {l : List Char} (h : hasDotComp l) :
    validateNameComp (splitSlash l).1 ≠ none ∨
    (∃ r, (splitSlash l).2 = some r ∧ hasDotComp r) := by
  obtain ⟨c, hmem, hval⟩ := h
  rw [splitComps_eq_splitSlash] at hmem
  rcases List.mem_cons.mp hmem with rfl | hmem2
  · exact Or.inl hval
  · cases hsp : (splitSlash l).2 with
    | none =>
      rw [hsp] at hmem2
      simp at hmem2
    | some r =>
      rw [hsp] at hmem2
      exact Or.inr ⟨r, rfl, ⟨c, hmem2, hval⟩⟩

/-- A spliced name (target ++ separator ++ rest) keeps every dot
component of the rest. -/
theorem hasDotComp_append {t r : List Char} (h : hasDotComp r) :
    hasDotComp (t ++ '/' :: r) := by
  obtain ⟨c, hmem, hval⟩ := h
  exact ⟨c, by rw [splitComps_append_slash]; exact List.mem_append_right _ hmem, hval⟩

/-- The possible shapes of the remaining name after a successful
updateFromChildN: unchanged, or a splice prepending a target and a
separator. -/
theorem updateFromChildN_ok_nameRem {root : Node} {f : FindHelper} {c : Node}
    {f2 : FindHelper} (h : f.updateFromChildN root c = Except.ok f2) :
    f2.nameRem = f.nameRem ∨ ∃ t, f2.nameRem = t ++ '/' :: f.nameRem := by
  unfold FindHelper.updateFromChildN at h
  by_cases h1 : c.mode &&& ModeSymlink ≠ 0
  · rw [if_pos h1] at h
    by_cases h2 : f.resolveSymlinks = true
    · rw [if_pos h2] at h
      by_cases h3 : f.links + 1 > 255
      · rw [if_pos h3] at h
        exact absurd h (by simp)
      · rw [if_neg h3] at h
        cases hc : c.content with
        | nil =>
          rw [hc] at h
          simp only [Except.ok.injEq] at h
          subst h
          exact Or.inr ⟨[], rfl⟩
        | cons t0 ts =>
          rw [hc] at h
          simp only [] at h
          split_ifs at h with ht
          · simp only [Except.ok.injEq] at h
            subst h
            exact Or.inr ⟨ts, rfl⟩
          · simp only [Except.ok.injEq] at h
            subst h
            exact Or.inr ⟨t0 :: ts, rfl⟩
    · rw [if_neg h2] at h
      simp only [Except.ok.injEq] at h
      subst h
      exact Or.inl rfl
  · rw [if_neg h1] at h
    simp only [Except.ok.injEq] at h
    subst h
    exact Or.inl rfl

/-- A successful getChildN on a non-empty component implies the component
passed validation. -/
theorem getChildN_ok_valid {f : FindHelper} {comp : List Char}
    {x : Option Node} (h : f.getChildN comp = Res.ok x) (hne : comp ≠ []) :
    validateNameComp comp = none := by
  unfold FindHelper.getChildN at h
  rw [if_pos hne] at h
  cases hv : validateNameComp comp with
  | none => rfl
  | some e =>
    rw [hv] at h
    simp at h

/-- The recoverable errors getChildN can produce. -/
theorem getChildN_fsErr {f : FindHelper} {comp : List Char} {e : Err}
    (h : f.getChildN comp = Res.fsErr e) :
    e = Err.enotdir ∨ e = Err.notExist := by
  unfold FindHelper.getChildN at h
  by_cases hne : comp ≠ []
  · rw [if_pos hne] at h
    cases hv : validateNameComp comp with
    | some e2 => rw [hv] at h; simp at h
    | none =>
      rw [hv] at h
      by_cases hd : f.n.mode &&& ModeDir = 0
      · rw [if_pos hd] at h
        simp at h
        exact Or.inl h.symm
      · rw [if_neg hd] at h
        cases hl : f.n.dirLookup comp with
        | none => rw [hl] at h; simp at h; exact Or.inr h.symm
        | some c => rw [hl] at h; simp at h
  · rw [if_neg hne] at h
    simp at h

/-- The only recoverable error updateFromChildN can produce is the
too-many-links error. -/
theorem updateFromChildN_error_eq {root : Node} {f : FindHelper} {c : Node} {e : Err}
    (h : f.updateFromChildN root c = Except.error e) : e = Err.tooManyLinks := by
  unfold FindHelper.updateFromChildN at h
  by_cases h1 : c.mode &&& ModeSymlink ≠ 0
  · rw [if_pos h1] at h
    by_cases h2 : f.resolveSymlinks = true
    · rw [if_pos h2] at h
      by_cases h3 : f.links + 1 > 255
      · rw [if_pos h3] at h
        simp at h
        exact h.symm
      · rw [if_neg h3] at h
        cases hc : c.content with
        | nil => rw [hc] at h; simp at h
        | cons t0 ts =>
          rw [hc] at h
          simp only [] at h
          split_ifs at h
    · rw [if_neg h2] at h
      simp at h
  · rw [if_neg h1] at h
    simp at h

/-- Dot components survive the walk: when the remaining name contains a
"." or ".." component, the walk either panics, fails with the
not-a-directory error, or stops with the dot component still inside the
unresolved remainder. -/
theorem runF_dot (root : Node) : ∀ (fuel : Nat) (f f2 : FindHelper) (res : RunRes),
    runF root fuel f = some (f2, res) → hasDotComp f.nameRem →
    (∃ e, res = RunRes.panicked e) ∨ res = RunRes.fsErr Err.enotdir ∨
      hasDotComp f2.nameRem := by
  intro fuel
  induction fuel with
  | zero => intro f f2 res h hdot; simp [runF] at h
  | succ fuel ih =>
    intro f f2 res h hdot
    rw [runF] at h
    cases hrem : f.nameRem with
    | nil => exact absurd (hrem ▸ hdot) hasDotComp_nil
    | cons c0 cs =>
      rw [hrem] at h
      rw [hrem] at hdot
      cases hfc : f.faultCheck with
      | some e =>
        rw [hfc] at h
        simp only [Option.some.injEq, Prod.mk.injEq] at h
        right; right
        rw [← h.1, hrem]
        exact hdot
      | none =>
        rw [hfc] at h
        simp only [] at h
        cases hg : f.getChildN (splitSlash (c0 :: cs)).1 with
        | panicked e =>
          rw [hg] at h
          simp only [Option.some.injEq, Prod.mk.injEq] at h
          exact Or.inl ⟨e, h.2.symm⟩
        | fsErr e =>
          rw [hg] at h
          simp only [Option.some.injEq, Prod.mk.injEq] at h
          right; right
          rw [← h.1, hrem]
          exact hdot
        | ok childNOpt =>
          rw [hg] at h
          simp only [] at h
          rcases hasDotComp_cases hdot with hv | ⟨r, hsp, hdr⟩
          · have hne : (splitSlash (c0 :: cs)).1 ≠ [] := by
              intro hx
              rw [hx] at hv
              simp [validateNameComp] at hv
            exact absurd (getChildN_ok_valid hg hne) hv
          · rw [hsp] at h
            simp only [Option.getD_some] at h
            cases hcomp : (splitSlash (c0 :: cs)).1 with
            | nil =>
              rw [hcomp] at h
              cases childNOpt with
              | none =>
                simp only [] at h
                exact ih _ _ _ h hdr
              | some c =>
                simp only [] at h
                exact ih _ _ _ h hdr
            | cons d0 ds =>
              rw [hcomp] at h
              cases childNOpt with
              | none =>
                simp only [] at h
                exact ih _ _ _ h hdr
              | some c =>
                simp only [] at h
                cases hu : FindHelper.updateFromChildN root { f with nameRem := r } c with
                | error e =>
                  rw [hu] at h
                  simp only [Option.some.injEq, Prod.mk.injEq] at h
                  right; right
                  rw [← h.1]
                  exact hdr
                | ok f3 =>
                  rw [hu] at h
                  simp only [] at h
                  rcases updateFromChildN_ok_nameRem hu with heq | ⟨t, heq⟩
                  · exact ih _ _ _ h (by rw [heq]; exact hdr)
                  · exact ih _ _ _ h (by rw [heq]; exact hasDotComp_append hdr)

/-- An iteration of the walk whose first name component is empty just
strips the separator: the helper state (in particular the link counter
and the current node) is otherwise untouched. -/
theorem runF_empty_comp (root : Node) (f : FindHelper) (rest : List Char) (fuel : Nat)
    (hfc : f.faultCheck = none) (hrem : f.nameRem = '/' :: rest) :
    runF root (fuel + 1) f = runF root fuel { f with nameRem := rest } := by
  conv_lhs => rw [runF]
  rw [hrem, hfc]
  simp [splitSlash, FindHelper.getChildN]

/-! ### The no-symlink, fault-ignoring walk as a total recursive function

Set resolves with ignoreInjectedFaults = true and resolveSymlinks =
false.  In that mode the walk of run is captured by the structural
recursion `walkNR` over the component decomposition of the remaining
name, which the correspondence lemma below proves equal to runF.  This
form is what the idempotence analysis of Set works with. -/

/-- Outcome of the no-symlink fault-ignoring walk: terminal node reached
with its access path; a panic of validateNameComp; the not-a-directory
error; or a missing entry, with the node, the remaining components and
the access path at the failure. -/
inductive WalkOut where
  | term (n : Node) (path : List (List Char))
  | panicked (e : Err)
  | enotdir
  | notExist (n : Node) (comps : List (List Char)) (path : List (List Char))

/-- The walk of run for ignoreInjectedFaults = true and resolveSymlinks
= false, over the component list of the remaining name: empty components
are skipped, a symlink child is looked up but not entered (the current
node stays), a non-symlink child becomes the current node and its name
extends the access path. -/
def walkNR (n : Node) : List (List Char) → List (List Char) → WalkOut
  | [], π => WalkOut.term n π
  | c :: rest, π =>
    if c = [] then walkNR n rest π
    else
      match validateNameComp c with
      | some e => WalkOut.panicked e
      | none =>
        if n.mode &&& ModeDir = 0 then WalkOut.enotdir
        else
          match n.dirLookup c with
          | none => WalkOut.notExist n (c :: rest) π
          | some m =>
            if m.mode &&& ModeSymlink ≠ 0 then walkNR n rest π
            else walkNR m rest (π ++ [m.name])

/-- The first splitSlash component never contains a separator. -/
theorem splitSlash_comp_no_slash : ∀ (l : List Char), '/' ∉ (splitSlash l).1 := by
  intro l
  induction l with
  | nil => simp [splitSlash]
  | cons c cs ih =>
    by_cases hc : c = '/'
    · simp [splitSlash, hc]
    · simp only [splitSlash, if_neg hc]
      intro hmem
      rcases List.mem_cons.mp hmem with h | h
      · exact hc h.symm
      · exact ih h

/-- Terminal iteration of the walk: an exhausted name yields success. -/
theorem runF_done_ok (root : Node) (f : FindHelper) (fuel : Nat)
    (hfc : f.faultCheck = none) (hrem : f.nameRem = []) :
    runF root (fuel + 1) f = some (f, RunRes.ok) := by
  conv_lhs => rw [runF]
  rw [hrem, hfc]

/-- A failing getChildN ends the walk with that error and an unchanged
state. -/
theorem runF_fail_fsErr (root : Node) (f : FindHelper) (fuel : Nat) (e : Err)
    (hfc : f.faultCheck = none) (hne : f.nameRem ≠ [])
    (hg : f.getChildN (splitSlash f.nameRem).1 = Res.fsErr e) :
    runF root (fuel + 1) f = some (f, RunRes.fsErr e) := by
  conv_lhs => rw [runF]
  cases hrem : f.nameRem with
  | nil => exact absurd hrem hne
  | cons c0 cs0 =>
    rw [hrem] at hg
    simp only [hfc, hg]

/-- A panicking getChildN ends the walk with that panic and an unchanged
state. -/
theorem runF_fail_panic (root : Node) (f : FindHelper) (fuel : Nat) (e : Err)
    (hfc : f.faultCheck = none) (hne : f.nameRem ≠ [])
    (hg : f.getChildN (splitSlash f.nameRem).1 = Res.panicked e) :
    runF root (fuel + 1) f = some (f, RunRes.panicked e) := by
  conv_lhs => rw [runF]
  cases hrem : f.nameRem with
  | nil => exact absurd hrem hne
  | cons c0 cs0 =>
    rw [hrem] at hg
    simp only [hfc, hg]

/-- A matched symlink child with symlink resolution off is skipped: only
the remaining name advances. -/
theorem runF_step_skip_symlink (root : Node) (f : FindHelper) (c r : List Char)
    (m : Node) (fuel : Nat) (hfc : f.faultCheck = none) (hc : c ≠ [])
    (hslash : '/' ∉ c) (hval : validateNameComp c = none)
    (hdir : f.n.mode &&& ModeDir ≠ 0) (hlook : f.n.dirLookup c = some m)
    (hsym : m.mode &&& ModeSymlink ≠ 0) (hrs : f.resolveSymlinks = false)
    (hrem : f.nameRem = c ++ '/' :: r ∨ (f.nameRem = c ∧ r = [])) :
    runF root (fuel + 1) f = runF root fuel { f with nameRem := r } := by
  have hget : f.getChildN c = Res.ok (some m) := by
    unfold FindHelper.getChildN
    rw [if_pos hc, hval, if_neg hdir, hlook]
  have hupd : FindHelper.updateFromChildN root { f with nameRem := r } m =
      Except.ok { f with nameRem := r } := by
    unfold FindHelper.updateFromChildN
    rw [if_pos hsym, if_neg (by simp [hrs])]
  rcases hrem with hrem | ⟨hrem, hr⟩
  · cases c with
    | nil => exact absurd rfl hc
    | cons a as =>
      have h1 : splitSlash (a :: (as ++ '/' :: r)) = (a :: as, some r) := by
        have h2 := splitSlash_prefix hslash r
        simpa using h2
      conv_lhs => rw [runF]
      simp only [hrem, List.cons_append, hfc, h1, hget, hupd, Option.getD_some]
  · subst hr
    cases c with
    | nil => exact absurd rfl hc
    | cons a as =>
      have h1 : splitSlash (a :: as) = (a :: as, none) := splitSlash_no_slash hslash
      conv_lhs => rw [runF]
      simp only [hrem, hfc, h1, hget, hupd, Option.getD_none]

/-- The remaining name and the component list kept in correspondence:
the empty name corresponds both to the empty component list and to the
one-empty-component list splitComps produces for it. -/
def Rep (nameRem : List Char) (comps : List (List Char)) : Prop :=
  comps = splitComps nameRem ∨ (nameRem = [] ∧ comps = [])

/-- Correspondence of runF (fault-ignoring, non-symlink-resolving mode)
with the walk function walkNR. -/
theorem runF_walkNR (root : Node) : ∀ (fuel : Nat) (f : FindHelper)
    (comps : List (List Char)),
    f.ignoreInjectedFaults = true → f.resolveSymlinks = false →
    Rep f.nameRem comps → comps.length < fuel →
    ∃ f2 res, runF root fuel f = some (f2, res) ∧
      match walkNR f.n comps f.path with
      | WalkOut.term n2 π2 => res = RunRes.ok ∧ f2.n = n2 ∧ f2.path = π2 ∧ f2.nameRem = []
      | WalkOut.panicked e => res = RunRes.panicked e
      | WalkOut.enotdir => res = RunRes.fsErr Err.enotdir
      | WalkOut.notExist n2 comps2 π2 =>
          res = RunRes.fsErr Err.notExist ∧ f2.n = n2 ∧ f2.path = π2 ∧
            Rep f2.nameRem comps2 ∧ comps2 ≠ [] := by
  intro fuel
  induction fuel with
  | zero =>
    intro f comps _ _ _ hfuel
    exact absurd hfuel (by omega)
  | succ fuel ih =>
    intro f comps hig hrs hrep hfuel
    have hfc : f.faultCheck = none := by simp [FindHelper.faultCheck, hig]
    cases comps with
    | nil =>
      have hnr : f.nameRem = [] := by
        rcases hrep with h | ⟨h, _⟩
        · exact absurd h.symm (splitComps_ne_nil _)
        · exact h
      refine ⟨f, RunRes.ok, runF_done_ok root f fuel hfc hnr, ?_⟩
      simp [walkNR, hnr]
    | cons c rest =>
      cases hnr : f.nameRem with
      | nil =>
        have hcr : c = [] ∧ rest = [] := by
          rcases hrep with h | ⟨_, h⟩
          · rw [hnr] at h
            simp [splitComps] at h
            exact h
          · simp at h
        obtain ⟨rfl, rfl⟩ := hcr
        refine ⟨f, RunRes.ok, runF_done_ok root f fuel hfc hnr, ?_⟩
        simp [walkNR, hnr]
      | cons c0 cs0 =>
        have hcomps : c :: rest = splitComps (c0 :: cs0) := by
          rcases hrep with h | ⟨h, _⟩
          · rw [hnr] at h
            exact h
          · rw [h] at hnr
            simp at hnr
        rw [splitComps_eq_splitSlash (c0 :: cs0)] at hcomps
        simp only [List.cons.injEq] at hcomps
        obtain ⟨hc1, hrest⟩ := hcomps
        have hslash0 : '/' ∉ c := by
          rw [hc1]
          exact splitSlash_comp_no_slash _
        have hlen : rest.length < fuel := by
          simp at hfuel
          omega
        by_cases hcnil : c = []
        · subst hcnil
          have hc0 : c0 = '/' := by
            by_contra hx
            simp [splitSlash, hx] at hc1
          subst hc0
          have hsp2 : (splitSlash ('/' :: cs0)).2 = some cs0 := by simp [splitSlash]
          have hrest2 : rest = splitComps cs0 := by
            rw [hrest, hsp2]
          have hnr2 : f.nameRem = '/' :: cs0 := hnr
          have hstep := runF_empty_comp root f cs0 fuel hfc hnr2
          obtain ⟨f2, res, hrun, hmat⟩ := ih { f with nameRem := cs0 } rest hig hrs
            (Or.inl hrest2) hlen
          refine ⟨f2, res, by rw [hstep]; exact hrun, ?_⟩
          have hw : walkNR f.n ([] :: rest) f.path = walkNR f.n rest f.path := by
            simp [walkNR]
          rw [hw]
          exact hmat
        · cases hval : validateNameComp c with
          | some e =>
            have hg : f.getChildN (splitSlash f.nameRem).1 = Res.panicked e := by
              rw [hnr, ← hc1]
              unfold FindHelper.getChildN
              rw [if_pos hcnil, hval]
            refine ⟨f, RunRes.panicked e,
              runF_fail_panic root f fuel e hfc (by rw [hnr]; simp) hg, ?_⟩
            have hw : walkNR f.n (c :: rest) f.path = WalkOut.panicked e := by
              simp [walkNR, hcnil, hval]
            rw [hw]
          | none =>
            by_cases hdir : f.n.mode &&& ModeDir = 0
            · have hg : f.getChildN (splitSlash f.nameRem).1 = Res.fsErr Err.enotdir := by
                rw [hnr, ← hc1]
                unfold FindHelper.getChildN
                rw [if_pos hcnil, hval, if_pos hdir]
              refine ⟨f, RunRes.fsErr Err.enotdir,
                runF_fail_fsErr root f fuel Err.enotdir hfc (by rw [hnr]; simp) hg, ?_⟩
              have hw : walkNR f.n (c :: rest) f.path = WalkOut.enotdir := by
                simp [walkNR, hcnil, hval, hdir]
              rw [hw]
            · cases hlook : f.n.dirLookup c with
              | none =>
                have hg : f.getChildN (splitSlash f.nameRem).1 = Res.fsErr Err.notExist := by
                  rw [hnr, ← hc1]
                  unfold FindHelper.getChildN
                  rw [if_pos hcnil, hval, if_neg hdir, hlook]
                refine ⟨f, RunRes.fsErr Err.notExist,
                  runF_fail_fsErr root f fuel Err.notExist hfc (by rw [hnr]; simp) hg, ?_⟩
                have hw : walkNR f.n (c :: rest) f.path =
                    WalkOut.notExist f.n (c :: rest) f.path := by
                  simp [walkNR, hcnil, hval, hdir, hlook]
                rw [hw]
                refine ⟨rfl, rfl, rfl, Or.inl ?_, by simp⟩
                rw [hnr, splitComps_eq_splitSlash (c0 :: cs0), ← hc1, ← hrest]
              | some m =>
                have hremd2 : f.nameRem = c ++ '/' :: ((splitSlash (c0 :: cs0)).2.getD []) ∨
                    (f.nameRem = c ∧ ((splitSlash (c0 :: cs0)).2.getD []) = []) := by
                  cases hsp : (splitSlash (c0 :: cs0)).2 with
                  | none =>
                    right
                    simp only [Option.getD_none]
                    refine ⟨?_, trivial⟩
                    rw [hnr, hc1]
                    exact (splitSlash_none hsp).symm
                  | some r =>
                    left
                    simp only [Option.getD_some]
                    rw [hnr, hc1]
                    exact splitSlash_some hsp
                have hrepRest : Rep ((splitSlash (c0 :: cs0)).2.getD []) rest := by
                  rw [hrest]
                  cases hsp : (splitSlash (c0 :: cs0)).2 with
                  | none => simp [Rep]
                  | some r => simp [Rep]
                by_cases hsym : m.mode &&& ModeSymlink ≠ 0
                · have hstep := runF_step_skip_symlink root f c
                    ((splitSlash (c0 :: cs0)).2.getD []) m fuel hfc hcnil hslash0 hval
                    hdir hlook hsym hrs hremd2
                  obtain ⟨f2, res, hrun, hmat⟩ := ih
                    { f with nameRem := (splitSlash (c0 :: cs0)).2.getD [] } rest
                    hig hrs hrepRest hlen
                  refine ⟨f2, res, by rw [hstep]; exact hrun, ?_⟩
                  have hw : walkNR f.n (c :: rest) f.path = walkNR f.n rest f.path := by
                    simp [walkNR, hcnil, hval, hdir, hlook, hsym]
                  rw [hw]
                  exact hmat
                · have hsym0 : m.mode &&& ModeSymlink = 0 := by
                    by_contra hx
                    exact hsym hx
                  have hstep := runF_step_clean root f c
                    ((splitSlash (c0 :: cs0)).2.getD []) m fuel hfc hcnil hslash0 hval
                    hdir hlook hsym0 hremd2
                  obtain ⟨f2, res, hrun, hmat⟩ := ih
                    { f with nameRem := (splitSlash (c0 :: cs0)).2.getD [], n := m, path := f.path ++ [m.name] } rest hig hrs hrepRest hlen
                  refine ⟨f2, res, by rw [hstep]; exact hrun, ?_⟩
                  have hw : walkNR f.n (c :: rest) f.path =
                      walkNR m rest (f.path ++ [m.name]) := by
                    simp [walkNR, hcnil, hval, hdir, hlook, hsym0]
                  rw [hw]
                  exact hmat

/-- The number of components is at most the name length plus one. -/
theorem splitComps_length_le : ∀ (l : List Char),
    (splitComps l).length ≤ l.length + 1 := by
  intro l
  induction l with
  | nil => simp [splitComps]
  | cons c cs ih =>
    by_cases hc : c = '/'
    · simp [splitComps, hc]
      omega
    · simp only [splitComps, if_neg hc]
      cases h : splitComps cs with
      | nil => simp
      | cons a r =>
        rw [h] at ih
        simp at ih ⊢
        omega

/-- A missing-entry outcome always carries a non-empty first remaining
component. -/
theorem walkNR_notExist_shape {n2 : Node} {π2 comps2 : List (List Char)} :
    ∀ (comps : List (List Char)) (n : Node) (π : List (List Char)),
      walkNR n comps π = WalkOut.notExist n2 comps2 π2 →
      ∃ c rest, comps2 = c :: rest ∧ c ≠ [] := by
  intro comps
  induction comps with
  | nil => intro n π h; simp [walkNR] at h
  | cons c rest ih =>
    intro n π h
    by_cases hc : c = []
    · rw [walkNR, if_pos hc] at h
      exact ih n π h
    · rw [walkNR, if_neg hc] at h
      cases hval : validateNameComp c with
      | some e =>
        rw [hval] at h
        simp at h
      | none =>
        rw [hval] at h
        simp only [] at h
        by_cases hdir : n.mode &&& ModeDir = 0
        · rw [if_pos hdir] at h
          simp at h
        · rw [if_neg hdir] at h
          cases hlook : n.dirLookup c with
          | none =>
            rw [hlook] at h
            simp only [WalkOut.notExist.injEq] at h
            exact ⟨c, rest, h.2.1.symm, hc⟩
          | some m =>
            rw [hlook] at h
            simp only [] at h
            by_cases hsym : m.mode &&& ModeSymlink ≠ 0
            · rw [if_pos hsym] at h
              exact ih n π h
            · rw [if_neg hsym] at h
              exact ih m (π ++ [m.name]) h

/-- dirLookup finds a node carrying exactly the looked-up name. -/
theorem dirLookupList_name {nm : List Char} {m : Node} : ∀ {cs : List Node},
    dirLookupList nm cs = some m → m.name = nm := by
  intro cs h
  induction cs with
  | nil => simp [dirLookupList] at h
  | cons c cs2 ih =>
    by_cases hc : c.name = nm
    · simp [dirLookupList, hc] at h
      rw [← h]
      exact hc
    · simp [dirLookupList, hc] at h
      exact ih h

/-- A failed lookup means no child carries the name. -/
theorem dirLookupList_none_names {nm : List Char} : ∀ {cs : List Node},
    dirLookupList nm cs = none → ∀ y ∈ cs, y.name ≠ nm := by
  intro cs h
  induction cs with
  | nil => intro y hy; cases hy
  | cons c cs2 ih =>
    by_cases hc : c.name = nm
    · simp [dirLookupList, hc] at h
    · simp [dirLookupList, hc] at h
      intro y hy
      rcases List.mem_cons.mp hy with rfl | hy2
      · exact hc
      · exact ih h y hy2

/-- Lookup over an appended child list: the left part is searched
first. -/
theorem dirLookupList_append (nm : List Char) : ∀ (l1 l2 : List Node),
    dirLookupList nm (l1 ++ l2) =
      match dirLookupList nm l1 with
      | some m => some m
      | none => dirLookupList nm l2 := by
  intro l1 l2
  induction l1 with
  | nil => simp [dirLookupList]
  | cons c cs ih =>
    by_cases hc : c.name = nm
    · simp [dirLookupList, hc]
    · simp only [List.cons_append, dirLookupList, if_neg hc]
      exact ih

/-- Lookup through a name-preserving transformation of the children. -/
theorem dirLookupList_map (nm : List Char) (g : Node → Node)
    (hg : ∀ y, (g y).name = y.name) : ∀ (cs : List Node),
    dirLookupList nm (cs.map g) = (dirLookupList nm cs).map g := by
  intro cs
  induction cs with
  | nil => simp [dirLookupList]
  | cons c cs2 ih =>
    by_cases hc : c.name = nm
    · simp [dirLookupList, hg, hc]
    · simp only [List.map_cons, dirLookupList, hg, if_neg hc]
      exact ih

/-- A walk over empty components only stays put. -/
theorem walkNR_all_empty : ∀ (comps : List (List Char)) (n : Node)
    (π : List (List Char)), (∀ c ∈ comps, c = []) →
    walkNR n comps π = WalkOut.term n π := by
  intro comps
  induction comps with
  | nil => intro n π _; rfl
  | cons c rest ih =>
    intro n π h
    have hc : c = [] := h c (by simp)
    rw [walkNR, if_pos hc]
    exact ih n π (fun d hd => h d (List.mem_cons_of_mem _ hd))

/-- A terminal walk from a non-directory node never moves: every
component must have been empty. -/
theorem walkNR_nondir_term {X : Node} {τ : List (List Char)} :
    ∀ (comps : List (List Char)) (n : Node) (π : List (List Char)),
    n.mode &&& ModeDir = 0 → walkNR n comps π = WalkOut.term X τ →
    X = n ∧ τ = π ∧ ∀ c ∈ comps, c = [] := by
  intro comps
  induction comps with
  | nil =>
    intro n π _ h
    simp only [walkNR, WalkOut.term.injEq] at h
    exact ⟨h.1.symm, h.2.symm, by simp⟩
  | cons c rest ih =>
    intro n π hdir h
    by_cases hc : c = []
    · rw [walkNR, if_pos hc] at h
      obtain ⟨h1, h2, h3⟩ := ih n π hdir h
      exact ⟨h1, h2, by
        intro d hd
        rcases List.mem_cons.mp hd with rfl | hd2
        · exact hc
        · exact h3 d hd2⟩
    · rw [walkNR, if_neg hc] at h
      cases hval : validateNameComp c with
      | some e => rw [hval] at h; simp at h
      | none =>
        rw [hval] at h
        simp only [] at h
        rw [if_pos hdir] at h
        simp at h

/-- Terminal walks extend the access path; an unextended path means the
walk never descended, and a non-trivial extension ends in the name of
the terminal node. -/
theorem walkNR_term_path {X : Node} :
    ∀ (comps : List (List Char)) (n : Node) (π τ : List (List Char)),
    walkNR n comps π = WalkOut.term X τ →
    ∃ σ, τ = π ++ σ ∧ (σ = [] → X = n) ∧
      (σ ≠ [] → σ.getLast? = some X.name) := by
  intro comps
  induction comps with
  | nil =>
    intro n π τ h
    simp only [walkNR, WalkOut.term.injEq] at h
    exact ⟨[], by simp [h.2.symm], fun _ => h.1.symm, by simp⟩
  | cons c rest ih =>
    intro n π τ h
    by_cases hc : c = []
    · rw [walkNR, if_pos hc] at h
      exact ih n π τ h
    · rw [walkNR, if_neg hc] at h
      cases hval : validateNameComp c with
      | some e => rw [hval] at h; simp at h
      | none =>
        rw [hval] at h
        simp only [] at h
        by_cases hdir : n.mode &&& ModeDir = 0
        · rw [if_pos hdir] at h; simp at h
        · rw [if_neg hdir] at h
          cases hlook : n.dirLookup c with
          | none => rw [hlook] at h; simp at h
          | some m =>
            rw [hlook] at h
            simp only [] at h
            by_cases hsym : m.mode &&& ModeSymlink ≠ 0
            · rw [if_pos hsym] at h
              exact ih n π τ h
            · rw [if_neg hsym] at h
              obtain ⟨σ2, hτ, hnil, hlast⟩ := ih m (π ++ [m.name]) τ h
              refine ⟨m.name :: σ2, by simpa using hτ, by simp, ?_⟩
              intro _
              cases hσ : σ2 with
              | nil =>
                rw [hσ] at hnil
                rw [hnil rfl]
                simp
              | cons a b =>
                rw [List.getLast?_cons_cons]
                rw [hσ] at hlast
                exact hlast (by simp)

/-- One non-empty component step of the walk, with only the emptiness
test discharged. -/
theorem walkNR_cons_ne (n : Node) {c : List Char} (rest π : List (List Char))
    (hc : c ≠ []) :
    walkNR n (c :: rest) π =
      match validateNameComp c with
      | some e => WalkOut.panicked e
      | none =>
        if n.mode &&& ModeDir = 0 then WalkOut.enotdir
        else
          match n.dirLookup c with
          | none => WalkOut.notExist n (c :: rest) π
          | some m =>
            if m.mode &&& ModeSymlink ≠ 0 then walkNR n rest π
            else walkNR m rest (π ++ [m.name]) := by
  rw [walkNR, if_neg hc]

/-- Missing-entry walks extend the access path; an unextended path means
the walk never descended, and a non-trivial extension ends in the name of
the node missing the entry. -/
theorem walkNR_notExist_path {M : Node} {comps2 : List (List Char)} :
    ∀ (comps : List (List Char)) (n : Node) (π τ : List (List Char)),
    walkNR n comps π = WalkOut.notExist M comps2 τ →
    ∃ σ, τ = π ++ σ ∧ (σ = [] → M = n) ∧
      (σ ≠ [] → σ.getLast? = some M.name) := by
  intro comps
  induction comps with
  | nil =>
    intro n π τ h
    simp [walkNR] at h
  | cons c rest ih =>
    intro n π τ h
    by_cases hc : c = []
    · rw [walkNR, if_pos hc] at h
      exact ih n π τ h
    · rw [walkNR, if_neg hc] at h
      cases hval : validateNameComp c with
      | some e => rw [hval] at h; simp at h
      | none =>
        rw [hval] at h
        simp only [] at h
        by_cases hdir : n.mode &&& ModeDir = 0
        · rw [if_pos hdir] at h; simp at h
        · rw [if_neg hdir] at h
          cases hlook : n.dirLookup c with
          | none =>
            rw [hlook] at h
            simp only [WalkOut.notExist.injEq] at h
            exact ⟨[], by simp [h.2.2.symm], fun _ => h.1.symm, by simp⟩
          | some m =>
            rw [hlook] at h
            simp only [] at h
            by_cases hsym : m.mode &&& ModeSymlink ≠ 0
            · rw [if_pos hsym] at h
              exact ih n π τ h
            · rw [if_neg hsym] at h
              obtain ⟨σ2, hτ, hnil, hlast⟩ := ih m (π ++ [m.name]) τ h
              refine ⟨m.name :: σ2, by simpa using hτ, by simp, ?_⟩
              intro _
              cases hσ : σ2 with
              | nil =>
                rw [hσ] at hnil
                rw [hnil rfl]
                simp
              | cons a b =>
                rw [List.getLast?_cons_cons]
                rw [hσ] at hlast
                exact hlast (by simp)

/-- What the outcome records as the walk path, for the outcomes carrying
one. -/
def WalkOut.pathOf : WalkOut → Option (List (List Char))
  | WalkOut.term _ τ => some τ
  | WalkOut.notExist _ _ τ => some τ
  | _ => none

/-- When the outcome path strictly extends the accumulated path, the walk
descended from the start node into a non-symlink child carrying the first
extension name. -/
theorem walkNR_first_descent {d : List Char} {σ2 : List (List Char)} :
    ∀ (comps : List (List Char)) (n : Node) (π : List (List Char)),
    (walkNR n comps π).pathOf = some (π ++ d :: σ2) →
    ∃ m, n.dirLookup d = some m ∧ m.mode &&& ModeSymlink = 0 := by
  intro comps
  induction comps with
  | nil =>
    intro n π h
    simp only [walkNR, WalkOut.pathOf, Option.some.injEq] at h
    have := congrArg List.length h
    simp at this
  | cons c rest ih =>
    intro n π h
    by_cases hc : c = []
    · rw [walkNR, if_pos hc] at h
      exact ih n π h
    · rw [walkNR, if_neg hc] at h
      cases hval : validateNameComp c with
      | some e => rw [hval] at h; simp [WalkOut.pathOf] at h
      | none =>
        rw [hval] at h
        simp only [] at h
        by_cases hdir : n.mode &&& ModeDir = 0
        · rw [if_pos hdir] at h; simp [WalkOut.pathOf] at h
        · rw [if_neg hdir] at h
          cases hlook : n.dirLookup c with
          | none =>
            rw [hlook] at h
            simp only [WalkOut.pathOf, Option.some.injEq] at h
            have := congrArg List.length h
            simp at this
          | some m =>
            rw [hlook] at h
            simp only [] at h
            by_cases hsym : m.mode &&& ModeSymlink ≠ 0
            · rw [if_pos hsym] at h
              exact ih n π h
            · rw [if_neg hsym] at h
              have hname : m.name = c := by
                have : dirLookupList c n.children = some m := hlook
                exact dirLookupList_name this
              have hdm : d = m.name := by
                cases ho : walkNR m rest (π ++ [m.name]) with
                | panicked e => rw [ho] at h; simp [WalkOut.pathOf] at h
                | enotdir => rw [ho] at h; simp [WalkOut.pathOf] at h
                | term Y τ =>
                  rw [ho] at h
                  simp only [WalkOut.pathOf, Option.some.injEq] at h
                  obtain ⟨σ0, hτ0, _, _⟩ := walkNR_term_path _ _ _ _ ho
                  rw [hτ0] at h
                  have h3 : π ++ d :: σ2 = π ++ (m.name :: σ0) := by
                    rw [← h]; simp
                  have h2 := congrArg (fun l => List.drop π.length l) h3
                  simp at h2
                  exact h2.1
                | notExist M2 c2 τ =>
                  rw [ho] at h
                  simp only [WalkOut.pathOf, Option.some.injEq] at h
                  obtain ⟨σ0, hτ0, _, _⟩ := walkNR_notExist_path _ _ _ _ ho
                  rw [hτ0] at h
                  have h3 : π ++ d :: σ2 = π ++ (m.name :: σ0) := by
                    rw [← h]; simp
                  have h2 := congrArg (fun l => List.drop π.length l) h3
                  simp at h2
                  exact h2.1
              refine ⟨m, ?_, by simpa using hsym⟩
              rw [hdm, hname]
              exact hlook

/-- updateAtPath along a non-trivial path keeps the name of the node it
starts from. -/
theorem updateAtPath_name (b : Node) : ∀ (σ : List (List Char)) (y : Node),
    σ ≠ [] → (updateAtPath y σ b).name = y.name := by
  intro σ y hσ
  cases σ with
  | nil => exact absurd rfl hσ
  | cons a r => simp [updateAtPath, Node.name]

/-- updateAtPath along a non-trivial path keeps the mode of the node it
starts from. -/
theorem updateAtPath_mode (b : Node) : ∀ (σ : List (List Char)) (y : Node),
    σ ≠ [] → (updateAtPath y σ b).mode = y.mode := by
  intro σ y hσ
  cases σ with
  | nil => exact absurd rfl hσ
  | cons a r => simp [updateAtPath, Node.mode]

/-- A walk that starts and ends at the same node with the same path moved
only through skips, so it behaves the same from a node with the same
children and directory status. -/
theorem walkNR_stay_congr (A B : Node) (hch : B.children = A.children)
    (hdir : B.mode &&& ModeDir = 0 ↔ A.mode &&& ModeDir = 0) :
    ∀ (comps τ : List (List Char)),
    walkNR A comps τ = WalkOut.term A τ →
    walkNR B comps τ = WalkOut.term B τ := by
  intro comps
  induction comps with
  | nil => intro τ _; rfl
  | cons c rest ih =>
    intro τ h
    by_cases hc : c = []
    · rw [walkNR, if_pos hc] at h ⊢
      exact ih τ h
    · cases hval : validateNameComp c with
      | some e =>
        rw [walkNR_cons_ne _ _ _ hc, hval] at h
        simp at h
      | none =>
        rw [walkNR_cons_ne _ _ _ hc, hval] at h
        rw [walkNR_cons_ne _ _ _ hc, hval]
        simp only [] at h ⊢
        by_cases hdA : A.mode &&& ModeDir = 0
        · rw [if_pos hdA] at h; simp at h
        · rw [if_neg hdA] at h
          rw [if_neg (fun hx => hdA (hdir.mp hx))]
          cases hlook : A.dirLookup c with
          | none => rw [hlook] at h; simp at h
          | some m =>
            rw [hlook] at h
            simp only [] at h
            have hlookB : B.dirLookup c = some m := by
              rw [Node.dirLookup, hch]
              exact hlook
            rw [hlookB]
            simp only []
            by_cases hsym : m.mode &&& ModeSymlink ≠ 0
            · rw [if_pos hsym] at h ⊢
              exact ih τ h
            · rw [if_neg hsym] at h
              obtain ⟨σ0, hτ0, _, _⟩ := walkNR_term_path _ _ _ _ h
              have hlen := congrArg List.length hτ0
              simp only [List.length_append, List.length_cons,
                List.length_nil] at hlen
              omega

/-- A walk that reports a missing entry at its own start node moved only
through skips, so from a start node with the same mode and extended
children it just drops the skipped components. -/
theorem walkNR_stay_notExist (M M2 : Node) (extra : List Node)
    (hch : M2.children = M.children ++ extra) (hmode : M2.mode = M.mode) :
    ∀ (comps comps2 τ : List (List Char)),
    walkNR M comps τ = WalkOut.notExist M comps2 τ →
    walkNR M2 comps τ = walkNR M2 comps2 τ := by
  intro comps
  induction comps with
  | nil => intro comps2 τ h; simp [walkNR] at h
  | cons c rest ih =>
    intro comps2 τ h
    by_cases hc : c = []
    · rw [walkNR, if_pos hc] at h
      rw [walkNR, if_pos hc]
      exact ih comps2 τ h
    · cases hval : validateNameComp c with
      | some e =>
        rw [walkNR_cons_ne _ _ _ hc, hval] at h
        simp at h
      | none =>
        rw [walkNR_cons_ne _ _ _ hc, hval] at h
        simp only [] at h
        by_cases hdM : M.mode &&& ModeDir = 0
        · rw [if_pos hdM] at h; simp at h
        · rw [if_neg hdM] at h
          cases hlook : M.dirLookup c with
          | none =>
            rw [hlook] at h
            simp only [WalkOut.notExist.injEq] at h
            rw [← h.2.1]
          | some m =>
            rw [hlook] at h
            simp only [] at h
            by_cases hsym : m.mode &&& ModeSymlink ≠ 0
            · rw [if_pos hsym] at h
              rw [walkNR_cons_ne _ _ _ hc, hval]
              simp only []
              rw [if_neg (by rw [hmode]; exact hdM)]
              have hlook2 : M2.dirLookup c = some m := by
                rw [Node.dirLookup, hch, dirLookupList_append]
                have hl : dirLookupList c M.children = some m := hlook
                rw [hl]
              rw [hlook2]
              simp only []
              rw [if_pos hsym]
              exact ih comps2 τ h
            · rw [if_neg hsym] at h
              obtain ⟨σ0, hτ0, _, _⟩ := walkNR_notExist_path _ _ _ _ h
              have hlen := congrArg List.length hτ0
              simp only [List.length_append, List.length_cons,
                List.length_nil] at hlen
              omega

/-- The components a missing-entry outcome reports are a literal suffix
of the components walked. -/
theorem walkNR_notExist_suffix {M : Node} {comps2 τ : List (List Char)} :
    ∀ (comps : List (List Char)) (n : Node) (π : List (List Char)),
    walkNR n comps π = WalkOut.notExist M comps2 τ →
    ∃ t, comps = t ++ comps2 := by
  intro comps
  induction comps with
  | nil => intro n π h; simp [walkNR] at h
  | cons c rest ih =>
    intro n π h
    by_cases hc : c = []
    · rw [walkNR, if_pos hc] at h
      obtain ⟨t, ht⟩ := ih n π h
      exact ⟨c :: t, by rw [List.cons_append, ← ht]⟩
    · cases hval : validateNameComp c with
      | some e =>
        rw [walkNR_cons_ne _ _ _ hc, hval] at h
        simp at h
      | none =>
        rw [walkNR_cons_ne _ _ _ hc, hval] at h
        simp only [] at h
        by_cases hdir : n.mode &&& ModeDir = 0
        · rw [if_pos hdir] at h; simp at h
        · rw [if_neg hdir] at h
          cases hlook : n.dirLookup c with
          | none =>
            rw [hlook] at h
            simp only [WalkOut.notExist.injEq] at h
            exact ⟨[], by rw [h.2.1]; simp⟩
          | some m =>
            rw [hlook] at h
            simp only [] at h
            by_cases hsym : m.mode &&& ModeSymlink ≠ 0
            · rw [if_pos hsym] at h
              obtain ⟨t, ht⟩ := ih n π h
              exact ⟨c :: t, by rw [List.cons_append, ← ht]⟩
            · rw [if_neg hsym] at h
              obtain ⟨t, ht⟩ := ih m (π ++ [m.name]) h
              exact ⟨c :: t, by rw [List.cons_append, ← ht]⟩

/-- The last entry of a list is that of any of its non-empty suffixes. -/
theorem getLast_append_cons (c : List Char) : ∀ (t rest : List (List Char)),
    (t ++ c :: rest).getLast? = (c :: rest).getLast? := by
  intro t
  induction t with
  | nil => intro rest; rfl
  | cons a t2 ih =>
    intro rest
    cases ht : t2 ++ c :: rest with
    | nil => simp at ht
    | cons b l =>
      rw [List.cons_append, ht, List.getLast?_cons_cons, ← ht, ih]

/-- createChildren only appends to the child list of the node it starts
from; name, mode, error and content are untouched. -/
theorem createChildrenComps_shape (vfile : VirtualFile) :
    ∀ (comps : List (List Char)) (n : Node),
    ∃ extra, (createChildrenComps vfile n comps).1 =
      Node.mk n.name n.mode n.err n.content (n.children ++ extra) := by
  intro comps
  induction comps with
  | nil =>
    intro n
    refine ⟨[], ?_⟩
    cases n
    simp [createChildrenComps, Node.name, Node.mode, Node.err, Node.content,
      Node.children]
  | cons c rest ih =>
    intro n
    cases rest with
    | nil =>
      by_cases hc : c ≠ []
      · cases hval : validateNameComp c with
        | some e =>
          refine ⟨[], ?_⟩
          cases n
          simp [createChildrenComps, hc, hval, Node.name, Node.mode, Node.err,
            Node.content, Node.children]
        | none =>
          refine ⟨[Node.mk c vfile.mode vfile.errVal
            (if vfile.mode &&& ModeDir = 0 then vfile.content else []) []], ?_⟩
          cases n
          simp [createChildrenComps, hc, hval, Node.dirAppend, Node.name,
            Node.mode, Node.err, Node.content, Node.children]
      · refine ⟨[], ?_⟩
        cases n
        simp [createChildrenComps, hc, Node.name, Node.mode, Node.err,
          Node.content, Node.children]
    | cons c2 rest2 =>
      by_cases hc : c ≠ []
      · cases hval : validateNameComp c with
        | some e =>
          refine ⟨[], ?_⟩
          cases n
          simp [createChildrenComps, hc, hval, Node.name, Node.mode, Node.err,
            Node.content, Node.children]
        | none =>
          refine ⟨[(createChildrenComps vfile (newDirNode ModeDir c)
            (c2 :: rest2)).1], ?_⟩
          cases n
          simp [createChildrenComps, hc, hval, Node.dirAppend, Node.name,
            Node.mode, Node.err, Node.content, Node.children]
      · obtain ⟨extra, hx⟩ := ih n
        refine ⟨extra, ?_⟩
        rw [← hx]
        simp [createChildrenComps, hc]

/-- Field reduction for `Node.name` on a literal constructor. -/
theorem Node.name_mk (nm : List Char) (m : Nat) (e : Option Err)
    (co : List Char) (cs : List Node) : (Node.mk nm m e co cs).name = nm := rfl

/-- Field reduction for `Node.mode` on a literal constructor. -/
theorem Node.mode_mk (nm : List Char) (m : Nat) (e : Option Err)
    (co : List Char) (cs : List Node) : (Node.mk nm m e co cs).mode = m := rfl

/-- Field reduction for `Node.err` on a literal constructor. -/
theorem Node.err_mk (nm : List Char) (m : Nat) (e : Option Err)
    (co : List Char) (cs : List Node) : (Node.mk nm m e co cs).err = e := rfl

/-- Field reduction for `Node.content` on a literal constructor. -/
theorem Node.content_mk (nm : List Char) (m : Nat) (e : Option Err)
    (co : List Char) (cs : List Node) : (Node.mk nm m e co cs).content = co :=
  rfl

/-- Field reduction for `Node.children` on a literal constructor. -/
theorem Node.children_mk (nm : List Char) (m : Nat) (e : Option Err)
    (co : List Char) (cs : List Node) : (Node.mk nm m e co cs).children = cs :=
  rfl

/-- Writing at a path and then at an extension of it is one write of the
composed replacement, provided the first write keeps the name looked up at
its last step. -/
theorem updateAtPath_append (b : Node) :
    ∀ (σ : List (List Char)) (r A : Node) (σ2 : List (List Char)),
    (σ = [] ∨ σ.getLast? = some A.name) →
    updateAtPath (updateAtPath r σ A) (σ ++ σ2) b =
      updateAtPath r σ (updateAtPath A σ2 b) := by
  intro σ
  induction σ with
  | nil => intro r A σ2 _; rfl
  | cons d σ' ih =>
    intro r A σ2 hA
    cases σ' with
    | nil =>
      have hdA : A.name = d := by
        rcases hA with h | h
        · simp at h
        · simp at h
          exact h.symm
      rw [List.cons_append]
      simp only [updateAtPath, Node.name_mk, Node.mode_mk, Node.err_mk,
        Node.content_mk, Node.children_mk, List.map_map, List.nil_append]
      refine congrArg _ ?_
      apply List.map_congr_left
      intro y _
      simp only [Function.comp]
      by_cases hy : y.name = d
      · rw [if_pos hy, if_pos (by rw [hdA]), if_pos hy]
      · rw [if_neg hy, if_neg hy, if_neg hy]
    | cons e σ'' =>
      have hA2 : (e :: σ'') = [] ∨ (e :: σ'').getLast? = some A.name := by
        rcases hA with h | h
        · simp at h
        · rw [List.getLast?_cons_cons] at h
          exact Or.inr h
      rw [List.cons_append]
      simp only [updateAtPath, Node.name_mk, Node.mode_mk, Node.err_mk,
        Node.content_mk, Node.children_mk, List.map_map]
      refine congrArg _ ?_
      apply List.map_congr_left
      intro y _
      simp only [Function.comp]
      by_cases hy : y.name = d
      · rw [if_pos hy, if_pos (by rw [Node.name_mk]; exact hy), if_pos hy]
        exact ih y A σ2 hA2
      · rw [if_neg hy, if_neg hy, if_neg hy]

/-- The terminal action of Set at the node the walk reached: directory
status must agree, then mode, injected error and (for non-directories)
content are replaced. -/
def setTerminal (vfile : VirtualFile) (n : Node) : Node × Option Err :=
  let nodeIsDir : Bool := n.mode &&& ModeDir != 0
  let vfileIsDir : Bool := vfile.mode &&& ModeDir != 0
  if nodeIsDir != vfileIsDir then (n, some Err.isDirDisagreement)
  else
    (Node.mk n.name vfile.mode vfile.errVal
      (if vfileIsDir then n.content else vfile.content) n.children, none)

/-- Characterization of Set through the walk function: a descriptor that
passes mode validation is dispatched on the walk outcome — panic
propagated, not-a-directory converted to the type-conflict panic, a
reached terminal updated in place (or type-conflict), a missing entry
grafted with createChildren. -/
theorem Set_walkNR (fs : VirtualFileSystem) (name : List Char) (vfile : VirtualFile)
    (hm : vfile.mode &&& (ModeType ^^^ setFlag vfile) = 0) :
    fs.Set name vfile =
      match walkNR fs.root (splitComps ((fs.abs name).drop 1)) [] with
      | WalkOut.panicked e => (fs, some e)
      | WalkOut.enotdir => (fs, some Err.isDirDisagreement)
      | WalkOut.term n π =>
          if (setTerminal vfile n).2.isSome then (fs, (setTerminal vfile n).2)
          else ({ fs with root := updateAtPath fs.root π (setTerminal vfile n).1 }, none)
      | WalkOut.notExist n comps2 π =>
          ({ fs with root :=
              updateAtPath fs.root π (createChildrenComps vfile n comps2).1 },
            (createChildrenComps vfile n comps2).2) := by
  unfold VirtualFileSystem.Set
  rw [if_neg (not_not_intro hm)]
  have hfuel : (splitComps ((fs.abs name).drop 1)).length <
      findFuel fs.root ((fs.abs name).drop 1) := by
    have h1 := splitComps_length_le ((fs.abs name).drop 1)
    unfold findFuel
    omega
  obtain ⟨f2, res, hrun, hmat⟩ := runF_walkNR fs.root
    (findFuel fs.root ((fs.abs name).drop 1))
    { ignoreInjectedFaults := true, links := 0, nameRem := (fs.abs name).drop 1,
      n := fs.root, resolveSymlinks := false, path := [] }
    (splitComps ((fs.abs name).drop 1)) rfl rfl (Or.inl rfl) hfuel
  have hfind : fs.find name true false = some (f2, res) := hrun
  rw [hfind]
  simp only [] at hmat
  cases hw : walkNR fs.root (splitComps ((fs.abs name).drop 1)) [] with
  | panicked e =>
    rw [hw] at hmat
    simp only [] at hmat
    subst hmat
    rfl
  | enotdir =>
    rw [hw] at hmat
    simp only [] at hmat
    subst hmat
    rfl
  | term n π =>
    rw [hw] at hmat
    simp only [] at hmat
    obtain ⟨h1, h2, h3, h4⟩ := hmat
    subst h1
    simp only []
    rw [if_neg (by rw [h4]; simp)]
    unfold setTerminal
    simp only []
    rw [h2, h3]
    by_cases hb : ((n.mode &&& ModeDir != 0) != (vfile.mode &&& ModeDir != 0)) = true
    · rw [if_pos hb, if_pos hb]
      simp
    · rw [if_neg hb, if_neg hb]
      simp
  | notExist n comps2 π =>
    rw [hw] at hmat
    simp only [] at hmat
    obtain ⟨h1, h2, h3, hrep2, hne2⟩ := hmat
    subst h1
    obtain ⟨c, crest, hc2, hcne⟩ := walkNR_notExist_shape _ _ _ hw
    have hcomps2 : comps2 = splitComps f2.nameRem := by
      rcases hrep2 with h | ⟨_, h⟩
      · exact h
      · rw [h] at hc2
        simp at hc2
    have hne3 : f2.nameRem ≠ [] := by
      intro hx
      rw [hx] at hcomps2
      rw [hcomps2] at hc2
      simp [splitComps] at hc2
      exact hcne hc2.1
    simp only []
    rw [if_pos hne3]
    unfold createChildren
    rw [h3, ← hcomps2]
    rw [h2]

/-- Option.map applied to a present value. -/
theorem option_map_some {α β : Type} (f : α → β) (a : α) :
    (some a).map f = some (f a) := rfl

/-- Rewriting the node a successful walk terminates at: the walk over the
updated tree reaches the replacement at the same path, unless the
replacement is a symlink, in which case it ends at some directory. -/
theorem walkNR_update_term (X X2 : Node)
    (hn : X2.name = X.name) (hch : X2.children = X.children)
    (hdir : X2.mode &&& ModeDir = 0 ↔ X.mode &&& ModeDir = 0)
    (hsd : X2.mode &&& ModeSymlink ≠ 0 → X2.mode &&& ModeDir = 0) :
    ∀ (comps : List (List Char)) (n : Node) (π σ : List (List Char)),
    walkNR n comps π = WalkOut.term X (π ++ σ) →
    walkNR (updateAtPath n σ X2) comps π = WalkOut.term X2 (π ++ σ) ∨
    (X2.mode &&& ModeSymlink ≠ 0 ∧ ∃ P τ2, P.mode &&& ModeDir ≠ 0 ∧
      walkNR (updateAtPath n σ X2) comps π = WalkOut.term P τ2) := by
  intro comps
  induction comps with
  | nil =>
    intro n π σ h
    simp only [walkNR, WalkOut.term.injEq] at h
    obtain ⟨hXn, hπ⟩ := h
    have hσ : σ = [] := by
      have hlen := congrArg List.length hπ
      simp only [List.length_append] at hlen
      have hz : σ.length = 0 := by omega
      exact List.length_eq_zero.mp hz
    subst hσ
    subst hXn
    left
    simp only [updateAtPath, List.append_nil]
    rfl
  | cons c rest ih =>
    intro n π σ h
    cases σ with
    | nil =>
      rw [List.append_nil] at h
      obtain ⟨σ0, hτ0, hnil0, _⟩ := walkNR_term_path _ _ _ _ h
      have hσ0 : σ0 = [] := by
        have hlen := congrArg List.length hτ0
        simp only [List.length_append] at hlen
        have hz : σ0.length = 0 := by omega
        exact List.length_eq_zero.mp hz
      have hXn : X = n := hnil0 hσ0
      subst hXn
      left
      rw [List.append_nil]
      simp only [updateAtPath]
      exact walkNR_stay_congr X X2 hch hdir (c :: rest) π h
    | cons d σ' =>
      obtain ⟨σ0, hτ0, _, hlast0⟩ := walkNR_term_path _ _ _ _ h
      have hσ0 : d :: σ' = σ0 := by
        have h2 := congrArg (fun l => List.drop π.length l) hτ0
        simpa using h2
      rw [← hσ0] at hlast0
      have hlastd : (d :: σ').getLast? = some X.name := hlast0 (by simp)
      have hg : ∀ y : Node,
          ((fun ch => if ch.name = d then updateAtPath ch σ' X2 else ch) y).name
            = y.name := by
        intro y
        by_cases hy : y.name = d
        · simp only [if_pos hy]
          cases σ' with
          | nil =>
            simp only [updateAtPath]
            rw [hn]
            simp only [List.getLast?_singleton, Option.some.injEq] at hlastd
            rw [← hlastd, hy]
          | cons e σ3 =>
            exact updateAtPath_name X2 (e :: σ3) y (by simp)
        · simp only [if_neg hy]
      have hlookU : (updateAtPath n (d :: σ') X2).dirLookup c =
          (n.dirLookup c).map
            (fun ch => if ch.name = d then updateAtPath ch σ' X2 else ch) := by
        simp only [updateAtPath, Node.dirLookup, Node.children_mk]
        exact dirLookupList_map c _ hg n.children
      have hmodeU : (updateAtPath n (d :: σ') X2).mode = n.mode :=
        updateAtPath_mode X2 (d :: σ') n (by simp)
      by_cases hc : c = []
      · rw [walkNR, if_pos hc] at h
        rcases ih n π (d :: σ') h with h1 | ⟨hs2, P, τ2, hPdir, h2⟩
        · left
          rw [walkNR, if_pos hc]
          exact h1
        · right
          refine ⟨hs2, P, τ2, hPdir, ?_⟩
          rw [walkNR, if_pos hc]
          exact h2
      · cases hval : validateNameComp c with
        | some e =>
          rw [walkNR_cons_ne _ _ _ hc, hval] at h
          simp at h
        | none =>
          rw [walkNR_cons_ne _ _ _ hc, hval] at h
          simp only [] at h
          by_cases hdA : n.mode &&& ModeDir = 0
          · rw [if_pos hdA] at h
            simp at h
          · rw [if_neg hdA] at h
            cases hlook : n.dirLookup c with
            | none =>
              rw [hlook] at h
              simp at h
            | some m =>
              rw [hlook] at h
              simp only [] at h
              have hmc : m.name = c :=
                dirLookupList_name
                  (show dirLookupList c n.children = some m from hlook)
              by_cases hsym : m.mode &&& ModeSymlink ≠ 0
              · rw [if_pos hsym] at h
                by_cases hcd : c = d
                · exfalso
                  obtain ⟨m2, hl2, hs2⟩ := walkNR_first_descent rest n π
                    (by rw [h]; rfl)
                  rw [← hcd, hlook] at hl2
                  have hm2 : m = m2 := by
                    injection hl2
                  rw [← hm2] at hs2
                  exact hsym hs2
                · have hgm : (if m.name = d then updateAtPath m σ' X2 else m)
                      = m := if_neg (by rw [hmc]; exact hcd)
                  rcases ih n π (d :: σ') h with h1 | ⟨hs2, P, τ2, hPdir, h2⟩
                  · left
                    rw [walkNR_cons_ne _ _ _ hc, hval]
                    simp only []
                    rw [if_neg (by rw [hmodeU]; exact hdA)]
                    rw [hlookU, hlook, option_map_some]
                    simp only []
                    rw [hgm, if_pos hsym]
                    exact h1
                  · right
                    refine ⟨hs2, P, τ2, hPdir, ?_⟩
                    rw [walkNR_cons_ne _ _ _ hc, hval]
                    simp only []
                    rw [if_neg (by rw [hmodeU]; exact hdA)]
                    rw [hlookU, hlook, option_map_some]
                    simp only []
                    rw [hgm, if_pos hsym]
                    exact h2
              · rw [if_neg hsym] at h
                obtain ⟨σ1, hτ1, hnil1, _⟩ := walkNR_term_path _ _ _ _ h
                have hdm : d = m.name ∧ σ' = σ1 := by
                  have h3 : π ++ d :: σ' = π ++ (m.name :: σ1) := by
                    rw [hτ1]
                    simp
                  have h2 := congrArg (fun l => List.drop π.length l) h3
                  simpa using h2
                obtain ⟨hdm1, hσ'1⟩ := hdm
                have hnil1' : σ' = [] → X = m := fun hx => hnil1 (hσ'1 ▸ hx)
                have hgm : (if m.name = d then updateAtPath m σ' X2 else m)
                    = updateAtPath m σ' X2 := if_pos (by rw [hdm1])
                rw [← hσ'1] at hτ1
                cases σ' with
                | nil =>
                  have hXm : X = m := hnil1' rfl
                  have hgm2 : (if m.name = d then updateAtPath m [] X2 else m)
                      = X2 := by
                    rw [hgm]
                    simp only [updateAtPath]
                  rw [hXm, hdm1] at h
                  by_cases hs2 : X2.mode &&& ModeSymlink ≠ 0
                  · right
                    refine ⟨hs2, updateAtPath n [d] X2, π, ?_, ?_⟩
                    · rw [updateAtPath_mode X2 [d] n (by simp)]
                      exact hdA
                    · rw [walkNR_cons_ne _ _ _ hc, hval]
                      simp only []
                      rw [if_neg (by rw [hmodeU]; exact hdA)]
                      rw [hlookU, hlook, option_map_some]
                      simp only []
                      rw [hgm2, if_pos hs2]
                      have hXnd : m.mode &&& ModeDir = 0 := by
                        rw [← hXm]
                        exact hdir.mp (hsd hs2)
                      have hrest := walkNR_nondir_term rest m (π ++ [m.name])
                        hXnd h
                      exact walkNR_all_empty rest _ π hrest.2.2
                  · left
                    rw [walkNR_cons_ne _ _ _ hc, hval]
                    simp only []
                    rw [if_neg (by rw [hmodeU]; exact hdA)]
                    rw [hlookU, hlook, option_map_some]
                    simp only []
                    rw [hgm2, if_neg hs2]
                    have hcongr := walkNR_stay_congr m X2
                      (by rw [hch, hXm]) (by rw [hdir, hXm]) rest
                      (π ++ [m.name]) h
                    rw [hn, hXm, hcongr, hdm1]
                | cons e σ3 =>
                  have hmode2 : (updateAtPath m (e :: σ3) X2).mode = m.mode :=
                    updateAtPath_mode X2 (e :: σ3) m (by simp)
                  have hname2 : (updateAtPath m (e :: σ3) X2).name = m.name :=
                    updateAtPath_name X2 (e :: σ3) m (by simp)
                  have hih : walkNR m rest (π ++ [m.name]) =
                      WalkOut.term X ((π ++ [m.name]) ++ (e :: σ3)) := by
                    rw [h, hdm1]
                    simp
                  rcases ih m (π ++ [m.name]) (e :: σ3) hih with
                    h1 | ⟨hs2, P, τ2, hPdir, h2⟩
                  · left
                    rw [walkNR_cons_ne _ _ _ hc, hval]
                    simp only []
                    rw [if_neg (by rw [hmodeU]; exact hdA)]
                    rw [hlookU, hlook, option_map_some]
                    simp only []
                    rw [hgm, if_neg (by rw [hmode2]; exact hsym), hname2, h1,
                      hdm1]
                    simp
                  · right
                    refine ⟨hs2, P, τ2, hPdir, ?_⟩
                    rw [walkNR_cons_ne _ _ _ hc, hval]
                    simp only []
                    rw [if_neg (by rw [hmodeU]; exact hdA)]
                    rw [hlookU, hlook, option_map_some]
                    simp only []
                    rw [hgm, if_neg (by rw [hmode2]; exact hsym), hname2]
                    exact h2

/-- Replacing the node a walk stopped at with a missing entry by a node of
the same name and mode whose children are only extended: the walk over the
updated tree resumes at the replacement with the remaining components. -/
theorem walkNR_update_notExist (M M2 : Node) (extra : List Node)
    (hn : M2.name = M.name) (hmo : M2.mode = M.mode)
    (hch : M2.children = M.children ++ extra) :
    ∀ (comps : List (List Char)) (n : Node) (π σ comps2 : List (List Char)),
    walkNR n comps π = WalkOut.notExist M comps2 (π ++ σ) →
    walkNR (updateAtPath n σ M2) comps π = walkNR M2 comps2 (π ++ σ) := by
  intro comps
  induction comps with
  | nil =>
    intro n π σ comps2 h
    simp [walkNR] at h
  | cons c rest ih =>
    intro n π σ comps2 h
    cases σ with
    | nil =>
      rw [List.append_nil] at h
      obtain ⟨σ0, hτ0, hnil0, _⟩ := walkNR_notExist_path _ _ _ _ h
      have hσ0 : σ0 = [] := by
        have hlen := congrArg List.length hτ0
        simp only [List.length_append] at hlen
        have hz : σ0.length = 0 := by omega
        exact List.length_eq_zero.mp hz
      have hMn : M = n := hnil0 hσ0
      rw [← hMn] at h
      rw [List.append_nil]
      simp only [updateAtPath]
      exact walkNR_stay_notExist M M2 extra hch hmo (c :: rest) comps2 π h
    | cons d σ' =>
      obtain ⟨σ0, hτ0, _, hlast0⟩ := walkNR_notExist_path _ _ _ _ h
      have hσ0 : d :: σ' = σ0 := by
        have h2 := congrArg (fun l => List.drop π.length l) hτ0
        simpa using h2
      rw [← hσ0] at hlast0
      have hlastd : (d :: σ').getLast? = some M.name := hlast0 (by simp)
      have hg : ∀ y : Node,
          ((fun ch => if ch.name = d then updateAtPath ch σ' M2 else ch) y).name
            = y.name := by
        intro y
        by_cases hy : y.name = d
        · simp only [if_pos hy]
          cases σ' with
          | nil =>
            simp only [updateAtPath]
            rw [hn]
            simp only [List.getLast?_singleton, Option.some.injEq] at hlastd
            rw [← hlastd, hy]
          | cons e σ3 =>
            exact updateAtPath_name M2 (e :: σ3) y (by simp)
        · simp only [if_neg hy]
      have hlookU : (updateAtPath n (d :: σ') M2).dirLookup c =
          (n.dirLookup c).map
            (fun ch => if ch.name = d then updateAtPath ch σ' M2 else ch) := by
        simp only [updateAtPath, Node.dirLookup, Node.children_mk]
        exact dirLookupList_map c _ hg n.children
      have hmodeU : (updateAtPath n (d :: σ') M2).mode = n.mode :=
        updateAtPath_mode M2 (d :: σ') n (by simp)
      by_cases hc : c = []
      · rw [walkNR, if_pos hc] at h
        rw [walkNR, if_pos hc]
        exact ih n π (d :: σ') comps2 h
      · cases hval : validateNameComp c with
        | some e =>
          rw [walkNR_cons_ne _ _ _ hc, hval] at h
          simp at h
        | none =>
          rw [walkNR_cons_ne _ _ _ hc, hval] at h
          simp only [] at h
          by_cases hdA : n.mode &&& ModeDir = 0
          · rw [if_pos hdA] at h
            simp at h
          · rw [if_neg hdA] at h
            cases hlook : n.dirLookup c with
            | none =>
              rw [hlook] at h
              simp only [WalkOut.notExist.injEq] at h
              exfalso
              have hlen := congrArg List.length h.2.2
              simp only [List.length_append, List.length_cons] at hlen
              omega
            | some m =>
              rw [hlook] at h
              simp only [] at h
              have hmc : m.name = c :=
                dirLookupList_name
                  (show dirLookupList c n.children = some m from hlook)
              by_cases hsym : m.mode &&& ModeSymlink ≠ 0
              · rw [if_pos hsym] at h
                by_cases hcd : c = d
                · exfalso
                  obtain ⟨m2, hl2, hs2⟩ := walkNR_first_descent rest n π
                    (by rw [h]; rfl)
                  rw [← hcd, hlook] at hl2
                  have hm2 : m = m2 := by injection hl2
                  rw [← hm2] at hs2
                  exact hsym hs2
                · have hgm : (if m.name = d then updateAtPath m σ' M2 else m)
                      = m := if_neg (by rw [hmc]; exact hcd)
                  rw [walkNR_cons_ne _ _ _ hc, hval]
                  simp only []
                  rw [if_neg (by rw [hmodeU]; exact hdA)]
                  rw [hlookU, hlook, option_map_some]
                  simp only []
                  rw [hgm, if_pos hsym]
                  exact ih n π (d :: σ') comps2 h
              · rw [if_neg hsym] at h
                obtain ⟨σ1, hτ1, hnil1, _⟩ := walkNR_notExist_path _ _ _ _ h
                have hdm : d = m.name ∧ σ' = σ1 := by
                  have h3 : π ++ d :: σ' = π ++ (m.name :: σ1) := by
                    rw [hτ1]
                    simp
                  have h2 := congrArg (fun l => List.drop π.length l) h3
                  simpa using h2
                obtain ⟨hdm1, hσ'1⟩ := hdm
                have hnil1' : σ' = [] → M = m := fun hx => hnil1 (hσ'1 ▸ hx)
                have hgm : (if m.name = d then updateAtPath m σ' M2 else m)
                    = updateAtPath m σ' M2 := if_pos (by rw [hdm1])
                cases σ' with
                | nil =>
                  have hMm : M = m := hnil1' rfl
                  have hgm2 : (if m.name = d then updateAtPath m [] M2 else m)
                      = M2 := by
                    rw [hgm]
                    simp only [updateAtPath]
                  rw [hMm, hdm1] at h
                  rw [walkNR_cons_ne _ _ _ hc, hval]
                  simp only []
                  rw [if_neg (by rw [hmodeU]; exact hdA)]
                  rw [hlookU, hlook, option_map_some]
                  simp only []
                  rw [hgm2, if_neg (by rw [hmo, hMm]; exact hsym)]
                  rw [hn, hMm, hdm1]
                  exact walkNR_stay_notExist m M2 extra
                    (by rw [hch, hMm]) (by rw [hmo, hMm]) rest comps2
                    (π ++ [m.name]) h
                | cons e σ3 =>
                  have hmode2 : (updateAtPath m (e :: σ3) M2).mode = m.mode :=
                    updateAtPath_mode M2 (e :: σ3) m (by simp)
                  have hname2 : (updateAtPath m (e :: σ3) M2).name = m.name :=
                    updateAtPath_name M2 (e :: σ3) m (by simp)
                  have hih : walkNR m rest (π ++ [m.name]) =
                      WalkOut.notExist M comps2
                        ((π ++ [m.name]) ++ (e :: σ3)) := by
                    rw [h, hdm1]
                    simp
                  have hres := ih m (π ++ [m.name]) (e :: σ3) comps2 hih
                  rw [walkNR_cons_ne _ _ _ hc, hval]
                  simp only []
                  rw [if_neg (by rw [hmodeU]; exact hdA)]
                  rw [hlookU, hlook, option_map_some]
                  simp only []
                  rw [hgm, if_neg (by rw [hmode2]; exact hsym), hname2, hres,
                    hdm1]
                  simp

/-- At a missing-entry outcome the node is a directory, the failing
component was validated, and its lookup found nothing. -/
theorem walkNR_notExist_lookup {M : Node} {c : List Char}
    {rest2 τ : List (List Char)} :
    ∀ (comps : List (List Char)) (n : Node) (π : List (List Char)),
    walkNR n comps π = WalkOut.notExist M (c :: rest2) τ →
    validateNameComp c = none ∧ M.mode &&& ModeDir ≠ 0 ∧
      M.dirLookup c = none := by
  intro comps
  induction comps with
  | nil => intro n π h; simp [walkNR] at h
  | cons c0 rest ih =>
    intro n π h
    by_cases hc : c0 = []
    · rw [walkNR, if_pos hc] at h
      exact ih n π h
    · cases hval : validateNameComp c0 with
      | some e =>
        rw [walkNR_cons_ne _ _ _ hc, hval] at h
        simp at h
      | none =>
        rw [walkNR_cons_ne _ _ _ hc, hval] at h
        simp only [] at h
        by_cases hdir : n.mode &&& ModeDir = 0
        · rw [if_pos hdir] at h
          simp at h
        · rw [if_neg hdir] at h
          cases hlook : n.dirLookup c0 with
          | none =>
            rw [hlook] at h
            simp only [WalkOut.notExist.injEq] at h
            obtain ⟨h1, h2, _⟩ := h
            have hc0 : c0 = c := by
              rw [List.cons.injEq] at h2
              exact h2.1
            subst hc0
            subst h1
            exact ⟨hval, hdir, hlook⟩
          | some m =>
            rw [hlook] at h
            simp only [] at h
            by_cases hsym : m.mode &&& ModeSymlink ≠ 0
            · rw [if_pos hsym] at h
              exact ih n π h
            · rw [if_neg hsym] at h
              exact ih m (π ++ [m.name]) h

/-- dirAppend spelled out over the fields of the directory node. -/
theorem dirAppend_eq (F T : Node) :
    F.dirAppend T =
      Node.mk F.name F.mode F.err F.content (F.children ++ [T]) := by
  cases F
  rfl

/-- A node rebuilt from its own fields. -/
theorem node_eta (F : Node) :
    Node.mk F.name F.mode F.err F.content F.children = F := by
  cases F
  rfl

/-- A name-keyed rewrite map fixes a child list none of whose names
match. -/
theorem map_if_name_skip (c : List Char) (f : Node → Node) :
    ∀ (cs : List Node), (∀ y ∈ cs, y.name ≠ c) →
    (cs.map fun y => if y.name = c then f y else y) = cs := by
  intro cs hy
  calc (cs.map fun y => if y.name = c then f y else y) = cs.map id :=
        List.map_congr_left (fun y hym => if_neg (hy y hym))
    _ = cs := List.map_id cs

/-- The leaf createChildren initializes from the descriptor already
carries the descriptor values, so updating it in place changes nothing. -/
theorem setTerminal_created (vfile : VirtualFile) (nameComp : List Char) :
    setTerminal vfile (Node.mk nameComp vfile.mode vfile.errVal
      (if vfile.mode &&& ModeDir = 0 then vfile.content else []) []) =
    (Node.mk nameComp vfile.mode vfile.errVal
      (if vfile.mode &&& ModeDir = 0 then vfile.content else []) [], none) := by
  by_cases hd : vfile.mode &&& ModeDir = 0
  · simp [setTerminal, Node.mode_mk, Node.name_mk, Node.content_mk,
      Node.children_mk, hd]
  · simp [setTerminal, Node.mode_mk, Node.name_mk, Node.content_mk,
      Node.children_mk, hd]

/-- Updating a node that already accepted the same descriptor once more is
the identity. -/
theorem setTerminal_none_idem (vfile : VirtualFile) (X : Node)
    (h : (setTerminal vfile X).2 = none) :
    setTerminal vfile (setTerminal vfile X).1 =
      ((setTerminal vfile X).1, none) := by
  unfold setTerminal at h ⊢
  simp only [] at h ⊢
  by_cases hb : ((X.mode &&& ModeDir != 0) != (vfile.mode &&& ModeDir != 0))
      = true
  · rw [if_pos hb] at h
    simp at h
  · rw [if_neg hb] at h ⊢
    simp only [Node.mode_mk, Node.name_mk, Node.content_mk, Node.children_mk]
    rw [if_neg (by simp)]
    by_cases hv : (vfile.mode &&& ModeDir != 0) = true
    · simp only [if_pos hv]
    · simp only [if_neg hv]

/-- The fields setTerminal never touches. -/
theorem setTerminal_keeps (vfile : VirtualFile) (X : Node) :
    (setTerminal vfile X).1.name = X.name ∧
    (setTerminal vfile X).1.children = X.children := by
  unfold setTerminal
  simp only []
  by_cases hb : ((X.mode &&& ModeDir != 0) != (vfile.mode &&& ModeDir != 0))
      = true
  · rw [if_pos hb]
    exact ⟨rfl, rfl⟩
  · rw [if_neg hb]
    exact ⟨rfl, rfl⟩

/-- When setTerminal accepts, the node takes the descriptor mode, and the
directory bits of the node and the descriptor agreed. -/
theorem setTerminal_none_mode (vfile : VirtualFile) (X : Node)
    (h : (setTerminal vfile X).2 = none) :
    (setTerminal vfile X).1.mode = vfile.mode ∧
    (X.mode &&& ModeDir = 0 ↔ vfile.mode &&& ModeDir = 0) := by
  unfold setTerminal at h ⊢
  simp only [] at h ⊢
  by_cases hb : ((X.mode &&& ModeDir != 0) != (vfile.mode &&& ModeDir != 0))
      = true
  · rw [if_pos hb] at h
    simp at h
  · rw [if_neg hb]
    constructor
    · simp [Node.mode_mk]
    · simp only [bne, Bool.not_eq_true] at hb
      by_cases hx : X.mode &&& ModeDir = 0
      · by_cases hy : vfile.mode &&& ModeDir = 0
        · exact ⟨fun _ => hy, fun _ => hx⟩
        · simp [hx, hy] at hb
      · by_cases hy : vfile.mode &&& ModeDir = 0
        · simp [hx, hy] at hb
        · exact ⟨fun hx2 => absurd hx2 hx, fun hy2 => absurd hy2 hy⟩

/-- A descriptor passing Set's mode validation cannot carry both the
symlink bit and the directory bit. -/
theorem symlink_descriptor_not_dir (vfile : VirtualFile)
    (hm : vfile.mode &&& (ModeType ^^^ setFlag vfile) = 0)
    (hs : vfile.mode &&& ModeSymlink ≠ 0) :
    vfile.mode &&& ModeDir = 0 := by
  by_contra hd
  have hflag : setFlag vfile = ModeDir := by
    unfold setFlag
    rw [if_pos (by simp [isDirMode, hd])]
  rw [hflag] at hm
  have hmask : (ModeType ^^^ ModeDir).testBit 27 = true := by decide
  have h27 : vfile.mode.testBit 27 = false := by
    have hb := congrArg (fun x => Nat.testBit x 27) hm
    simp only [Nat.testBit_land, Nat.zero_testBit, hmask, Bool.and_true]
      at hb
    exact hb
  have hz : vfile.mode &&& ModeSymlink = 0 := by
    apply Nat.eq_of_testBit_eq
    intro i
    rw [Nat.testBit_land, Nat.zero_testBit]
    by_cases hi : i = 27
    · subst hi
      rw [h27]
      rfl
    · have hsb : ModeSymlink.testBit i = false := by
        unfold ModeSymlink
        exact Nat.testBit_two_pow_of_ne (fun hx => hi hx.symm)
      rw [hsb, Bool.and_false]
  exact hs hz

/-- The mode newDirNode assigns. -/
theorem newDirNode_mode (m : Nat) (c : List Char) :
    (newDirNode m c).mode = m ||| ModeDir := by
  unfold newDirNode
  rw [Node.mode_mk]

/-- The name newDirNode assigns. -/
theorem newDirNode_name (m : Nat) (c : List Char) :
    (newDirNode m c).name = c := by
  unfold newDirNode
  rw [Node.name_mk]

/-- newDirNode starts with no children, so every lookup misses. -/
theorem newDirNode_lookup (m : Nat) (c x : List Char) :
    (newDirNode m c).dirLookup x = none := by
  rw [Node.dirLookup]
  unfold newDirNode
  rw [Node.children_mk]
  rfl

/-- The default intermediate directory mode has the directory bit. -/
theorem dirOr_and_dir : (ModeDir ||| ModeDir) &&& ModeDir ≠ 0 := by decide

/-- The default intermediate directory mode has no symlink bit. -/
theorem dirOr_and_symlink : ¬ ((ModeDir ||| ModeDir) &&& ModeSymlink ≠ 0) := by
  decide

/-- Walking the subtree createChildren grafts under a directory node with
no entry yet for the first created name: a dot component panics exactly
when creation panicked, and otherwise the walk ends at the created leaf
(rewriting it in place is the identity), or at a directory when the
descriptor is a symlink. -/
theorem walkNR_graft_fresh (vfile : VirtualFile) :
    ∀ (comps : List (List Char)) (F : Node) (ρ : List (List Char)),
    F.mode &&& ModeDir ≠ 0 →
    ((∀ x, F.dirLookup x = none) ∨
      (∃ hd tl, comps = hd :: tl ∧ hd ≠ [] ∧ F.dirLookup hd = none)) →
    comps ≠ [] →
    comps.getLast? ≠ some [] →
    (∀ e, (createChildrenComps vfile F comps).2 = some e →
      walkNR (createChildrenComps vfile F comps).1 comps ρ =
        WalkOut.panicked e) ∧
    ((createChildrenComps vfile F comps).2 = none →
      ∃ L σ2, walkNR (createChildrenComps vfile F comps).1 comps ρ =
          WalkOut.term L (ρ ++ σ2) ∧
        ((setTerminal vfile L = (L, none) ∧
          updateAtPath (createChildrenComps vfile F comps).1 σ2 L =
            (createChildrenComps vfile F comps).1) ∨
         (L.mode &&& ModeDir ≠ 0 ∧ vfile.mode &&& ModeSymlink ≠ 0))) := by
  intro comps
  induction comps with
  | nil =>
    intro F ρ _ _ hne _
    exact absurd rfl hne
  | cons c rest ih =>
    intro F ρ hFdir hlook _ hlast
    cases rest with
    | nil =>
      have hc : c ≠ [] := by
        intro hx
        rw [hx] at hlast
        exact hlast (by simp)
      have hlookc : F.dirLookup c = none := by
        rcases hlook with hall | ⟨hd2, tl2, heq, _, hl⟩
        · exact hall c
        · have : hd2 = c := by
            injection heq with h1 _
            exact h1.symm
          rw [← this]
          exact hl
      cases hval : validateNameComp c with
      | some e =>
        have hp : createChildrenComps vfile F [c] = (F, some e) := by
          simp [createChildrenComps, hc, hval]
        constructor
        · intro e2 he2
          rw [hp] at he2 ⊢
          simp at he2
          rw [walkNR_cons_ne _ _ _ hc, hval]
          simp only []
          rw [he2]
        · intro hnone
          rw [hp] at hnone
          simp at hnone
      | none =>
        have hp : createChildrenComps vfile F [c] =
            (F.dirAppend (Node.mk c vfile.mode vfile.errVal
              (if vfile.mode &&& ModeDir = 0 then vfile.content else []) []),
             none) := by
          simp [createChildrenComps, hc, hval]
        constructor
        · intro e2 he2
          rw [hp] at he2
          simp at he2
        · intro _
          rw [hp]
          simp only []
          by_cases hvs : vfile.mode &&& ModeSymlink ≠ 0
          · refine ⟨F.dirAppend (Node.mk c vfile.mode vfile.errVal
              (if vfile.mode &&& ModeDir = 0 then vfile.content else []) []),
              [], ?_, Or.inr ⟨?_, hvs⟩⟩
            · rw [walkNR_cons_ne _ _ _ hc, hval]
              simp only []
              rw [dirAppend_eq]
              simp only [Node.mode_mk]
              rw [if_neg hFdir]
              simp only [Node.dirLookup, Node.children_mk]
              rw [dirLookupList_append]
              have hlF : dirLookupList c F.children = none := hlookc
              rw [hlF]
              simp only [dirLookupList, Node.name_mk]
              rw [if_pos trivial]
              simp only [Node.mode_mk]
              rw [if_pos hvs]
              simp [walkNR]
            · rw [dirAppend_eq]
              simp only [Node.mode_mk]
              exact hFdir
          · refine ⟨Node.mk c vfile.mode vfile.errVal
              (if vfile.mode &&& ModeDir = 0 then vfile.content else []) [],
              [c], ?_, Or.inl ⟨setTerminal_created vfile c, ?_⟩⟩
            · rw [walkNR_cons_ne _ _ _ hc, hval]
              simp only []
              rw [dirAppend_eq]
              simp only [Node.mode_mk]
              rw [if_neg hFdir]
              simp only [Node.dirLookup, Node.children_mk]
              rw [dirLookupList_append]
              have hlF : dirLookupList c F.children = none := hlookc
              rw [hlF]
              simp only [dirLookupList, Node.name_mk]
              rw [if_pos trivial]
              simp only [Node.mode_mk]
              rw [if_neg hvs]
              simp [walkNR, Node.name_mk]
            · rw [dirAppend_eq]
              simp only [updateAtPath, Node.name_mk, Node.mode_mk, Node.err_mk,
                Node.content_mk, Node.children_mk]
              congr 1
              rw [List.map_append, map_if_name_skip c _ F.children
                (dirLookupList_none_names hlookc)]
              simp only [List.map_cons, List.map_nil, Node.name_mk]
              rw [if_pos trivial]
    | cons c2 rest2 =>
      have hlast2 : (c2 :: rest2).getLast? ≠ some [] := by
        rw [← List.getLast?_cons_cons]
        exact hlast
      by_cases hc : c = []
      · have hall : ∀ x, F.dirLookup x = none := by
          rcases hlook with hall | ⟨hd2, tl2, heq, hdne, _⟩
          · exact hall
          · exfalso
            apply hdne
            injection heq with h1 _
            rw [← h1]
            exact hc
        have hp : createChildrenComps vfile F (c :: c2 :: rest2) =
            createChildrenComps vfile F (c2 :: rest2) := by
          simp [createChildrenComps, hc]
        obtain ⟨ih1, ih2⟩ := ih F ρ hFdir (Or.inl hall) (by simp) hlast2
        constructor
        · intro e he
          rw [hp] at he ⊢
          rw [walkNR, if_pos hc]
          exact ih1 e he
        · intro hnone
          rw [hp] at hnone ⊢
          obtain ⟨L, σ2, hw, hd⟩ := ih2 hnone
          refine ⟨L, σ2, ?_, hd⟩
          rw [walkNR, if_pos hc]
          exact hw
      · have hlookc : F.dirLookup c = none := by
          rcases hlook with hall | ⟨hd2, tl2, heq, _, hl⟩
          · exact hall c
          · have : hd2 = c := by
              injection heq with h1 _
              exact h1.symm
            rw [← this]
            exact hl
        cases hval : validateNameComp c with
        | some e =>
          have hp : createChildrenComps vfile F (c :: c2 :: rest2) =
              (F, some e) := by
            simp [createChildrenComps, hc, hval]
          constructor
          · intro e2 he2
            rw [hp] at he2 ⊢
            simp at he2
            rw [walkNR_cons_ne _ _ _ hc, hval]
            simp only []
            rw [he2]
          · intro hnone
            rw [hp] at hnone
            simp at hnone
        | none =>
          have hp : createChildrenComps vfile F (c :: c2 :: rest2) =
              (F.dirAppend (createChildrenComps vfile (newDirNode ModeDir c)
                (c2 :: rest2)).1,
               (createChildrenComps vfile (newDirNode ModeDir c)
                 (c2 :: rest2)).2) := by
            simp [createChildrenComps, hc, hval]
          obtain ⟨ih1, ih2⟩ := ih (newDirNode ModeDir c) (ρ ++ [c])
            (by rw [newDirNode_mode]; exact dirOr_and_dir)
            (Or.inl (fun x => newDirNode_lookup ModeDir c x))
            (by simp) hlast2
          obtain ⟨extraC, hshape⟩ := createChildrenComps_shape vfile
            (c2 :: rest2) (newDirNode ModeDir c)
          have hCname : (createChildrenComps vfile (newDirNode ModeDir c)
              (c2 :: rest2)).1.name = c := by
            rw [hshape, Node.name_mk, newDirNode_name]
          have hCmode : (createChildrenComps vfile (newDirNode ModeDir c)
              (c2 :: rest2)).1.mode = ModeDir ||| ModeDir := by
            rw [hshape, Node.mode_mk, newDirNode_mode]
          have hstep : walkNR (F.dirAppend (createChildrenComps vfile
                (newDirNode ModeDir c) (c2 :: rest2)).1) (c :: c2 :: rest2) ρ =
              walkNR (createChildrenComps vfile (newDirNode ModeDir c)
                (c2 :: rest2)).1 (c2 :: rest2) (ρ ++ [c]) := by
            rw [walkNR_cons_ne _ _ _ hc, hval]
            simp only []
            rw [dirAppend_eq]
            simp only [Node.mode_mk]
            rw [if_neg hFdir]
            simp only [Node.dirLookup, Node.children_mk]
            rw [dirLookupList_append]
            have hlF : dirLookupList c F.children = none := hlookc
            rw [hlF]
            simp only [dirLookupList]
            rw [if_pos hCname]
            simp only []
            rw [if_neg (by rw [hCmode]; exact dirOr_and_symlink), hCname]
          constructor
          · intro e2 he2
            rw [hp] at he2 ⊢
            simp only [] at he2
            rw [hstep]
            exact ih1 e2 he2
          · intro hnone
            rw [hp] at hnone ⊢
            simp only [] at hnone
            obtain ⟨L, σ2', hw, hd⟩ := ih2 hnone
            refine ⟨L, c :: σ2', ?_, ?_⟩
            · simp only []
              rw [hstep, hw]
              simp
            · rcases hd with ⟨hA1, hA2⟩ | hB
              · left
                refine ⟨hA1, ?_⟩
                simp only []
                rw [dirAppend_eq]
                simp only [updateAtPath, Node.name_mk, Node.mode_mk,
                  Node.err_mk, Node.content_mk, Node.children_mk]
                congr 1
                rw [List.map_append, map_if_name_skip c _ F.children
                  (dirLookupList_none_names hlookc)]
                simp only [List.map_cons, List.map_nil]
                rw [if_pos hCname, hA2]
              · right
                exact hB

/-- Tree building panics whenever the components still to create contain
a dot component: validateNameComp is hit before or upon creating it. -/
theorem createChildrenComps_dot (vfile : VirtualFile) : ∀ (comps : List (List Char))
    (n : Node), (∃ c ∈ comps, validateNameComp c ≠ none) →
    (createChildrenComps vfile n comps).2.isSome := by
  intro comps
  induction comps with
  | nil => intro n h; simp at h
  | cons c cs ih =>
    intro n h
    have hdotNe : ∀ d : List Char, validateNameComp d ≠ none → d ≠ [] := by
      intro d hvd hx
      rw [hx] at hvd
      simp [validateNameComp] at hvd
    cases cs with
    | nil =>
      obtain ⟨d, hd, hvd⟩ := h
      simp at hd
      subst hd
      unfold createChildrenComps
      rw [if_pos (hdotNe d hvd)]
      cases hv : validateNameComp d with
      | none => exact absurd hv hvd
      | some e => simp
    | cons c2 rest =>
      obtain ⟨d, hd, hvd⟩ := h
      rcases List.mem_cons.mp hd with rfl | hd2
      · unfold createChildrenComps
        rw [if_pos (hdotNe d hvd)]
        cases hv : validateNameComp d with
        | none => exact absurd hv hvd
        | some e => simp
      · by_cases hc : c ≠ []
        · unfold createChildrenComps
          rw [if_pos hc]
          cases hv : validateNameComp c with
          | some e => simp
          | none =>
            simp only []
            exact ih (newDirNode ModeDir c) ⟨d, hd2, hvd⟩
        · push_neg at hc
          unfold createChildrenComps
          rw [if_neg (by simp [hc])]
          exact ih n ⟨d, hd2, hvd⟩

/-- Whether an optional error value is absent or caller-injected. -/
def errOk : Option Err → Bool
  | none => true
  | some (Err.injected _) => true
  | some _ => false

mutual

/-- Whether every injected-error field in the tree is absent or a
caller-injected value (true for every tree the package itself builds,
since VirtualFile carries only opaque caller errors). -/
def errsInjectedNode : Node → Bool
  | Node.mk _ _ e _ cs => errOk e && errsInjectedList cs

/-- errsInjectedNode over a child list. -/
def errsInjectedList : List Node → Bool
  | [] => true
  | n :: ns => errsInjectedNode n && errsInjectedList ns

end

/-- Members of an all-injected child list are all-injected. -/
theorem errsInjectedList_mem {m : Node} : ∀ {cs : List Node},
    errsInjectedList cs = true → m ∈ cs → errsInjectedNode m = true := by
  intro cs h hm
  induction cs with
  | nil => cases hm
  | cons c cs2 ih =>
    simp only [errsInjectedList, Bool.and_eq_true] at h
    rcases List.mem_cons.mp hm with rfl | hm2
    · exact h.1
    · exact ih h.2 hm2

/-- Field view of errsInjectedNode. -/
theorem errsInjectedNode_fields {n : Node} (h : errsInjectedNode n = true) :
    errOk n.err = true ∧ ∀ c ∈ n.children, errsInjectedNode c = true := by
  cases n with
  | mk nm m e cnt cs =>
    simp only [errsInjectedNode, Bool.and_eq_true] at h
    exact ⟨h.1, fun c hc => errsInjectedList_mem h.2 hc⟩

/-- Every node of an all-injected tree is all-injected. -/
theorem errsInjected_inTree {root m : Node} (hroot : errsInjectedNode root = true)
    (hm : InTree root m) : errOk m.err = true := by
  have hstrong : errsInjectedNode m = true := by
    induction hm with
    | base => exact hroot
    | child hk hmem ih => exact (errsInjectedNode_fields ih).2 _ hmem
  exact (errsInjectedNode_fields hstrong).1

/-- An absent-or-injected error is never the invalid-name panic value. -/
theorem errOk_ne_invalid {e : Option Err} (h : errOk e = true) :
    e ≠ some Err.invalidNameComp := by
  intro hx
  rw [hx] at h
  simp [errOk] at h

/-- On a tree whose injected errors are all caller-injected values, the
walk never returns the invalid-name panic value through the recoverable
error channel. -/
theorem runF_fsErr_not_invalid (root : Node) (hroot : errsInjectedNode root = true) :
    ∀ (fuel : Nat) (f f2 : FindHelper), InTree root f.n →
      runF root fuel f = some (f2, RunRes.fsErr Err.invalidNameComp) → False := by
  intro fuel
  induction fuel with
  | zero => intro f f2 _ h; simp [runF] at h
  | succ fuel ih =>
    intro f f2 hin h
    have hfault : ∀ e : Err, f.faultCheck = some e → e ≠ Err.invalidNameComp := by
      intro e hfc hx
      subst hx
      unfold FindHelper.faultCheck at hfc
      by_cases hig : f.ignoreInjectedFaults = true
      · rw [if_pos hig] at hfc
        simp at hfc
      · rw [if_neg hig] at hfc
        exact errOk_ne_invalid (errsInjected_inTree hroot hin) hfc
    rw [runF] at h
    cases hrem : f.nameRem with
    | nil =>
      rw [hrem] at h
      cases hfc : f.faultCheck with
      | some e =>
        rw [hfc] at h
        simp only [Option.some.injEq, Prod.mk.injEq, RunRes.fsErr.injEq] at h
        exact hfault e hfc h.2
      | none =>
        rw [hfc] at h
        simp at h
    | cons c0 cs =>
      rw [hrem] at h
      cases hfc : f.faultCheck with
      | some e =>
        rw [hfc] at h
        simp only [Option.some.injEq, Prod.mk.injEq, RunRes.fsErr.injEq] at h
        exact hfault e hfc h.2
      | none =>
        rw [hfc] at h
        simp only [] at h
        cases hg : f.getChildN (splitSlash (c0 :: cs)).1 with
        | panicked e =>
          rw [hg] at h
          simp at h
        | fsErr e =>
          rw [hg] at h
          simp only [Option.some.injEq, Prod.mk.injEq, RunRes.fsErr.injEq] at h
          rcases getChildN_fsErr hg with rfl | rfl <;> simp at h
        | ok childNOpt =>
          rw [hg] at h
          simp only [] at h
          cases hcomp : (splitSlash (c0 :: cs)).1 with
          | nil =>
            rw [hcomp] at h
            cases childNOpt with
            | none =>
              simp only [] at h
              refine ih _ _ ?_ h
              exact hin
            | some c =>
              simp only [] at h
              refine ih _ _ ?_ h
              exact hin
          | cons d0 ds =>
            rw [hcomp] at h
            cases childNOpt with
            | none =>
              simp only [] at h
              refine ih _ _ ?_ h
              exact hin
            | some c =>
              simp only [] at h
              have hcin : InTree root c := getChildN_inTree hin (by rw [hcomp] at hg; exact hg)
              cases hu : FindHelper.updateFromChildN root
                  { f with nameRem := (splitSlash (c0 :: cs)).2.getD [] } c with
              | error e =>
                rw [hu] at h
                simp only [Option.some.injEq, Prod.mk.injEq, RunRes.fsErr.injEq] at h
                rw [updateFromChildN_error_eq hu] at h
                simp at h
              | ok f3 =>
                rw [hu] at h
                simp only [] at h
                refine ih _ _ ?_ h
                rcases updateFromChildN_ok_cases hu with ⟨_, _, hn | hn⟩ | ⟨_, _, _, hn | hn⟩ <;>
                  rw [hn] <;> first
                | exact hin
                | exact hcin
                | exact InTree.base


/-- C4: resolution never loops forever: with the fuel find supplies, the
fuelled walk always produces a definite outcome, on every tree, path and
policy (first conjunct).  On the concrete symlink cycle `/x -> /y`,
`/y -> /x`, both Open and Stat (symlink-following enabled) fail with the
too-many-links error once the link counter passes the fixed bound 255
(middle conjuncts).  An iteration consuming an empty name component
leaves the link counter and the rest of the helper state unchanged (last
conjunct). -/
theorem symlink_cycle_too_many_links :
    (∀ (fs : VirtualFileSystem) (name : List Char) (ig rs : Bool),
      (fs.find name ig rs).isSome) ∧
    fsCycle.Open ("/x".toList) = some (Res.fsErr Err.tooManyLinks) ∧
    fsCycle.Stat ("/x".toList) = some (Res.fsErr Err.tooManyLinks) ∧
    (∀ (root : Node) (f : FindHelper) (rest : List Char) (fuel : Nat),
      f.faultCheck = none → f.nameRem = '/' :: rest →
      runF root (fuel + 1) f = runF root fuel { f with nameRem := rest }) :=
  ⟨find_isSome, by rfl, by rfl, runF_empty_comp⟩

/-- Witness for C4: the termination bound and the empty-component step
evaluated at concrete inputs. -/
theorem symlink_cycle_too_many_links_witness :
    (fsCycle.find ("/x".toList) false true).isSome ∧
    runF fsCycle.root 1
      { ignoreInjectedFaults := false, links := 3, nameRem := ['/'], n := fsCycle.root,
        resolveSymlinks := true, path := [] } =
      runF fsCycle.root 0
        { ignoreInjectedFaults := false, links := 3, nameRem := [], n := fsCycle.root,
          resolveSymlinks := true, path := [] } :=
  ⟨symlink_cycle_too_many_links.1 fsCycle ("/x".toList) false true,
   symlink_cycle_too_many_links.2.2.2 fsCycle.root
     { ignoreInjectedFaults := false, links := 3, nameRem := ['/'], n := fsCycle.root,
       resolveSymlinks := true, path := [] } [] 0 (by rfl) (by rfl)⟩

/-- C3: for every path whose walk passes only through existing,
error-free, non-symlink directory entries before reaching the node
carrying injected error E, Stat and Open (error checking enabled) both
fail and return exactly that injected error — whether the node is the
terminal node of the path (empty remainder) or an intermediate node
(any remainder whatsoever after it). -/
theorem stat_open_return_injected_error (fs : VirtualFileSystem)
    (comps rest : List (List Char)) (m : Node) (E : Nat)
    (hw : CleanWalkTo fs.root comps m) (he : m.err = some (Err.injected E)) :
    fs.Stat ('/' :: joinComps (comps ++ rest)) = some (Res.fsErr (Err.injected E)) ∧
    fs.Open ('/' :: joinComps (comps ++ rest)) = some (Res.fsErr (Err.injected E)) := by
  have habs : (fs.abs ('/' :: joinComps (comps ++ rest))).drop 1 =
      joinComps (comps ++ rest) := by
    simp [VirtualFileSystem.abs]
  have hfuel : comps.length <
      findFuel fs.root ((fs.abs ('/' :: joinComps (comps ++ rest))).drop 1) := by
    rw [habs]
    unfold findFuel
    have h1 := comps_length_le_joinComps comps rest (cleanWalk_comps_nonempty hw)
    omega
  obtain ⟨f2, hf⟩ := runF_cleanWalk_err fs.root (Err.injected E) hw he rest
    { ignoreInjectedFaults := false, links := 0,
      nameRem := (fs.abs ('/' :: joinComps (comps ++ rest))).drop 1,
      n := fs.root, resolveSymlinks := true, path := [] }
    (findFuel fs.root ((fs.abs ('/' :: joinComps (comps ++ rest))).drop 1))
    rfl habs rfl hfuel
  constructor
  · unfold VirtualFileSystem.Stat VirtualFileSystem.find
    simp only []
    rw [hf]
  · unfold VirtualFileSystem.Open VirtualFileSystem.find
    simp only []
    rw [hf]

/-- Witness for C3: injected error 9 on the intermediate directory /a and
injected error 7 on the terminal file /a/b are each returned verbatim by
both Stat and Open of "/a/b". -/
theorem stat_open_return_injected_error_witness :
    fsErrMid.Stat ("/a/b".toList) = some (Res.fsErr (Err.injected 9)) ∧
    fsErrMid.Open ("/a/b".toList) = some (Res.fsErr (Err.injected 9)) ∧
    fsErrEnd.Stat ("/a/b".toList) = some (Res.fsErr (Err.injected 7)) ∧
    fsErrEnd.Open ("/a/b".toList) = some (Res.fsErr (Err.injected 7)) := by
  have h1 := stat_open_return_injected_error fsErrMid [(['a'])] [(['b'])]
    (Node.mk ['a'] ModeDir (some (Err.injected 9)) []
      [Node.mk ['b'] 0 none ['w'] []]) 9
    (CleanWalkTo.cons rfl (by decide) (by decide) rfl (by decide) rfl (by decide)
      (CleanWalkTo.nil _)) rfl
  have h2 := stat_open_return_injected_error fsErrEnd [(['a']), (['b'])] []
    (Node.mk ['b'] 0 (some (Err.injected 7)) ['w'] []) 7
    (CleanWalkTo.cons rfl (by decide) (by decide) rfl (by decide) rfl (by decide)
      (CleanWalkTo.cons rfl (by decide) (by decide) rfl (by decide) rfl (by decide)
        (CleanWalkTo.nil _))) rfl
  exact ⟨h1.1, h1.2, h2.1, h2.2⟩

/-- C3: the code never returns an injected error that sits on a symlink
node.  In the tree where /t is an error-free regular file and /s is a
symlink to /t set with injected error 5, the error is recorded on the
symlink node, yet Stat("/s") and Open("/s") (error checking enabled)
succeed with the target /t instead of failing with the error: run only
consults f.n.err, and updateFromChildN splices a followed symlink's
target into the remaining name without ever making the symlink child the
current node, so the symlink's error is skipped - contradicting the
claim and the VirtualFile doc comment that a set Error makes every
operation on the file produce that error. -/
theorem stat_open_skip_symlink_error :
    (fsSymErr.root.dirLookup ['s']).map Node.err =
      some (some (Err.injected 5)) ∧
    statView (fsSymErr.Stat ("/s".toList)) =
      some (['t'], 0, none, ("hi".toList)) ∧
    openView (fsSymErr.Open ("/s".toList)) =
      some (['t'], 0, none, ("hi".toList), 0) := by
  decide

/-- Set always aborts loudly (some panic value) on a name one of whose
components is "." or "..": either descriptor validation, the walk, or
createChildren panics before the call can return normally. -/
theorem set_dot_panics (fs : VirtualFileSystem) (name : List Char)
    (vfile : VirtualFile) (hdot : hasDotComp ((fs.abs name).drop 1)) :
    (fs.Set name vfile).2.isSome := by
  unfold VirtualFileSystem.Set
  by_cases hm : vfile.mode &&& (ModeType ^^^ setFlag vfile) ≠ 0
  · rw [if_pos hm]
    simp
  · rw [if_neg hm]
    have hs := find_isSome fs name true false
    cases hf : fs.find name true false with
    | none => rw [hf] at hs; simp at hs
    | some pr =>
      obtain ⟨f2, res⟩ := pr
      have hrun : runF fs.root (findFuel fs.root ((fs.abs name).drop 1))
          { ignoreInjectedFaults := true, links := 0, nameRem := (fs.abs name).drop 1,
            n := fs.root, resolveSymlinks := false, path := [] } = some (f2, res) := by
        unfold VirtualFileSystem.find at hf
        exact hf
      have hcl := runF_dot fs.root _ _ _ _ hrun hdot
      simp only []
      cases res with
      | panicked e => simp
      | ok =>
        have hdot2 : hasDotComp f2.nameRem := by
          rcases hcl with ⟨e2, he2⟩ | he2 | hd
          · simp at he2
          · simp at he2
          · exact hd
        have hne : f2.nameRem ≠ [] := fun hx => hasDotComp_nil (hx ▸ hdot2)
        rw [if_pos hne]
        simp only []
        exact createChildrenComps_dot vfile _ _ hdot2
      | fsErr e =>
        have hdc2 : e = Err.enotdir ∨ hasDotComp f2.nameRem := by
          rcases hcl with ⟨e2, he2⟩ | he2 | hd
          · simp at he2
          · simp only [RunRes.fsErr.injEq] at he2
            exact Or.inl he2
          · exact Or.inr hd
        cases e with
        | enotdir => simp
        | notExist =>
          have hdot2 : hasDotComp f2.nameRem := by
            rcases hdc2 with hx | hx
            · simp at hx
            · exact hx
          have hne : f2.nameRem ≠ [] := fun hx => hasDotComp_nil (hx ▸ hdot2)
          rw [if_pos hne]
          simp only []
          exact createChildrenComps_dot vfile _ _ hdot2
        | tooManyLinks =>
          have hdot2 : hasDotComp f2.nameRem := by
            rcases hdc2 with hx | hx
            · simp at hx
            · exact hx
          have hne : f2.nameRem ≠ [] := fun hx => hasDotComp_nil (hx ▸ hdot2)
          rw [if_pos hne]
          simp only []
          exact createChildrenComps_dot vfile _ _ hdot2
        | badMode =>
          have hdot2 : hasDotComp f2.nameRem := by
            rcases hdc2 with hx | hx
            · simp at hx
            · exact hx
          have hne : f2.nameRem ≠ [] := fun hx => hasDotComp_nil (hx ▸ hdot2)
          rw [if_pos hne]
          simp only []
          exact createChildrenComps_dot vfile _ _ hdot2
        | isDirDisagreement =>
          have hdot2 : hasDotComp f2.nameRem := by
            rcases hdc2 with hx | hx
            · simp at hx
            · exact hx
          have hne : f2.nameRem ≠ [] := fun hx => hasDotComp_nil (hx ▸ hdot2)
          rw [if_pos hne]
          simp only []
          exact createChildrenComps_dot vfile _ _ hdot2
        | eof =>
          have hdot2 : hasDotComp f2.nameRem := by
            rcases hdc2 with hx | hx
            · simp at hx
            · exact hx
          have hne : f2.nameRem ≠ [] := fun hx => hasDotComp_nil (hx ▸ hdot2)
          rw [if_pos hne]
          simp only []
          exact createChildrenComps_dot vfile _ _ hdot2
        | notSupported =>
          have hdot2 : hasDotComp f2.nameRem := by
            rcases hdc2 with hx | hx
            · simp at hx
            · exact hx
          have hne : f2.nameRem ≠ [] := fun hx => hasDotComp_nil (hx ▸ hdot2)
          rw [if_pos hne]
          simp only []
          exact createChildrenComps_dot vfile _ _ hdot2
        | invalidNameComp =>
          have hdot2 : hasDotComp f2.nameRem := by
            rcases hdc2 with hx | hx
            · simp at hx
            · exact hx
          have hne : f2.nameRem ≠ [] := fun hx => hasDotComp_nil (hx ▸ hdot2)
          rw [if_pos hne]
          simp only []
          exact createChildrenComps_dot vfile _ _ hdot2
        | injected id =>
          have hdot2 : hasDotComp f2.nameRem := by
            rcases hdc2 with hx | hx
            · simp at hx
            · exact hx
          have hne : f2.nameRem ≠ [] := fun hx => hasDotComp_nil (hx ▸ hdot2)
          rw [if_pos hne]
          simp only []
          exact createChildrenComps_dot vfile _ _ hdot2

/-- C9: a path containing a "." or ".." name component is a programmer
error: Set (the construction operation) always aborts loudly with a
panic value on such a path (first conjunct); and on every tree whose
node errors are caller-injected values, no resolution operation (Stat,
Open) ever surfaces the invalid-name panic value as a recoverable error
result (second conjunct). -/
theorem dot_components_abort_loudly :
    (∀ (fs : VirtualFileSystem) (name : List Char) (vfile : VirtualFile),
      hasDotComp ((fs.abs name).drop 1) → (fs.Set name vfile).2.isSome) ∧
    (∀ (fs : VirtualFileSystem) (name : List Char),
      errsInjectedNode fs.root = true →
      fs.Stat name ≠ some (Res.fsErr Err.invalidNameComp) ∧
      fs.Open name ≠ some (Res.fsErr Err.invalidNameComp)) := by
  refine ⟨set_dot_panics, ?_⟩
  intro fs name hroot
  constructor
  · intro hx
    unfold VirtualFileSystem.Stat at hx
    cases hf : fs.find name false true with
    | none => rw [hf] at hx; simp at hx
    | some pr =>
      obtain ⟨f2, res⟩ := pr
      rw [hf] at hx
      cases res with
      | ok => simp at hx
      | panicked e => simp at hx
      | fsErr e =>
        simp only [Option.some.injEq, Res.fsErr.injEq] at hx
        subst hx
        exact runF_fsErr_not_invalid fs.root hroot _ _ _ InTree.base hf
  · intro hx
    unfold VirtualFileSystem.Open at hx
    cases hf : fs.find name false true with
    | none => rw [hf] at hx; simp at hx
    | some pr =>
      obtain ⟨f2, res⟩ := pr
      rw [hf] at hx
      cases res with
      | ok => simp at hx
      | panicked e => simp at hx
      | fsErr e =>
        simp only [Option.some.injEq, Res.fsErr.injEq] at hx
        subst hx
        exact runF_fsErr_not_invalid fs.root hroot _ _ _ InTree.base hf

/-- Witness for C9: Set of "/a/./b" aborts loudly, and on the concrete
scenario tree Stat and Open of "/dir/./x" do not surface the
invalid-name panic value as an error result (they panic instead). -/
theorem dot_components_abort_loudly_witness :
    ((emptyVFS.Set ("/a/./b".toList) (regDesc ("v".toList))).2.isSome ∧
      fsDirFile.Stat ("/dir/./x".toList) ≠ some (Res.fsErr Err.invalidNameComp) ∧
      fsDirFile.Open ("/dir/./x".toList) ≠ some (Res.fsErr Err.invalidNameComp)) :=
  ⟨dot_components_abort_loudly.1 emptyVFS ("/a/./b".toList) (regDesc ("v".toList))
      (by decide),
   (dot_components_abort_loudly.2 fsDirFile ("/dir/./x".toList) (by decide)).1,
   (dot_components_abort_loudly.2 fsDirFile ("/dir/./x".toList) (by decide)).2⟩

/-- C10: a Read with a zero-length buffer on a regular-file node returns
zero bytes and no error, whatever the read position (even at or past the
end of the content), so the end-of-data signal is only ever produced by a
read with a non-empty buffer; on a non-regular node the bad-mode error is
returned even for a zero-length buffer. -/
theorem read_zero_length_buffer (r : virtualFileDescriptor) :
    (isRegularMode r.node.mode = true → r.Read 0 = ([], r, none)) ∧
    (isRegularMode r.node.mode = false → r.Read 0 = ([], r, some Err.badMode)) := by
  constructor <;> intro h <;> simp [virtualFileDescriptor.Read, h]

/-- Witness for C10: a zero-length read at the very end of a regular file
succeeds without the end-of-data signal; a zero-length read on a
directory node still reports the bad-mode error. -/
theorem read_zero_length_buffer_witness :
    dAtEnd.Read 0 = ([], dAtEnd, none) ∧
    dOnDir.Read 0 = ([], dOnDir, some Err.badMode) :=
  ⟨(read_zero_length_buffer dAtEnd).1 (by decide),
   (read_zero_length_buffer dOnDir).2 (by decide)⟩

/-- C7: on a handle over a directory node, Readdir with a positive count
fails loudly with the not-supported panic, while a zero or negative count
returns the full listing of the immediate children in insertion order;
reading byte content from a non-regular node fails with the bad-mode
error.  On the concrete one-file scenario the listing of "/dir" is
exactly one entry named file.txt. -/
theorem readdir_bounded_vs_full :
    (∀ (r : virtualFileDescriptor) (cnt : Int), isDirMode r.node.mode = true →
      (0 < cnt → r.Readdir cnt = Res.panicked Err.notSupported) ∧
      (cnt ≤ 0 → r.Readdir cnt = Res.ok r.node.children)) ∧
    (∀ (r : virtualFileDescriptor) (pLen : Nat), isRegularMode r.node.mode = false →
      r.Read pLen = ([], r, some Err.badMode)) ∧
    fsDirFile.Open ("/dir".toList) = some (Res.ok dirHandle) ∧
    dirHandle.Readdir 1 = Res.panicked Err.notSupported ∧
    dirHandle.Readdir 0 = Res.ok dirHandle.node.children ∧
    dirHandle.node.children.map Node.name = [("file.txt".toList)] := by
  refine ⟨?_, ?_, rfl, rfl, rfl, rfl⟩
  · intro r cnt h
    constructor <;> intro hc
    · simp [virtualFileDescriptor.Readdir, h, hc]
    · have hc1 : ¬ (0 : Int) < cnt := by omega
      simp [virtualFileDescriptor.Readdir, h, hc1]
  · intro r pLen h
    simp [virtualFileDescriptor.Read, h]

/-- Witness for C7: on the concrete directory handle, a bounded listing
request panics, an unbounded one returns the one-element listing, and a
byte read on the directory handle reports the bad-mode error. -/
theorem readdir_bounded_vs_full_witness :
    dirHandle.Readdir 2 = Res.panicked Err.notSupported ∧
    dirHandle.Readdir (-1) = Res.ok dirHandle.node.children ∧
    dirHandle.Read 4 = ([], dirHandle, some Err.badMode) :=
  ⟨(readdir_bounded_vs_full.1 dirHandle 2 (by decide)).1 (by decide),
   (readdir_bounded_vs_full.1 dirHandle (-1) (by decide)).2 (by decide),
   readdir_bounded_vs_full.2.1 dirHandle 4 (by decide)⟩

/-- C2 (refuting theorem): a resolution step whose matched child is a
symlink, with symlink resolution not requested by the caller, leaves the
helper state completely unchanged: the current node does not become the
matched child even though no redirection occurs (updateFromChildN only
assigns the child when the child is not a symlink). -/
theorem updateFromChildN_symlink_unfollowed :
    (Node.mk ("x".toList) ModeSymlink none ("/y".toList) []).mode &&& ModeSymlink ≠ 0 ∧
    (getFound none).resolveSymlinks = false ∧
    FindHelper.updateFromChildN emptyVFS.root (getFound none)
      (Node.mk ("x".toList) ModeSymlink none ("/y".toList) []) =
      Except.ok (getFound none) ∧
    (getFound none).n.name ≠ (Node.mk ("x".toList) ModeSymlink none ("/y".toList) []).name :=
  ⟨by decide, rfl, rfl, by decide⟩

/-- C1 (failing-input theorem): `/x` exists as a symlink node and the
descriptor is a symlink (respectively a regular file), so the existing
directory/non-directory status agrees with the descriptor's; yet Set does
not update the node — it fails with the directory-disagreement panic and
leaves the tree unchanged, because the walk never advances onto a symlink
child when symlinks are not resolved and Set therefore compares the
descriptor against the parent directory. -/
theorem set_existing_symlink_conflicts :
    fsSymX.root.dirLookup ("x".toList) =
      some (Node.mk ("x".toList) ModeSymlink none ("/y".toList) []) ∧
    fsSymX.Set ("/x".toList) (symlinkDesc ("/z".toList)) =
      (fsSymX, some Err.isDirDisagreement) ∧
    fsSymX.Set ("/x".toList) (regDesc ("c".toList)) =
      (fsSymX, some Err.isDirDisagreement) :=
  ⟨rfl, rfl, rfl⟩

/-- C5: with `/a/b` a regular file, Set of `/a/b/c` with any descriptor
that passes the mode validation fails with the directory-disagreement
panic (the walk reports ENOTDIR at `/a/b`, which Set converts), and the
tree is observably identical before and after the failed call. -/
theorem set_under_regular_file_conflicts (d : VirtualFile)
    (hd : d.mode &&& (ModeType ^^^ setFlag d) = 0) :
    fsAB.Set ("/a/b/c".toList) d = (fsAB, some Err.isDirDisagreement) := by
  unfold VirtualFileSystem.Set
  rw [if_neg (not_not_intro hd)]
  rfl

/-- C6: when a path resolves (error-checking and symlink-following
enabled) to a regular-file node, Open succeeds with a handle at offset
zero, reading to completion with non-empty buffers of any size b
transfers exactly the node's content, and every read taken at or past the
end of the content transfers zero bytes, yields the end-of-data signal
and leaves the handle state unchanged, so repeated reads behave
identically. -/
theorem open_then_read_all (fs : VirtualFileSystem) (name : List Char)
    (f : FindHelper) (b : Nat)
    (hfind : fs.find name false true = some (f, RunRes.ok))
    (hreg : isRegularMode f.n.mode = true) (hb : 0 < b) :
    fs.Open name = some (Res.ok { node := f.n, readPos := 0 }) ∧
    readToEnd b (f.n.content.length + 1) { node := f.n, readPos := 0 } = f.n.content ∧
    (∀ p, f.n.content.length ≤ p →
      virtualFileDescriptor.Read { node := f.n, readPos := p } b =
        ([], { node := f.n, readPos := p }, some Err.eof)) := by
  refine ⟨?_, ?_, ?_⟩
  · unfold VirtualFileSystem.Open
    rw [hfind]
  · have h := readToEnd_eq_drop f.n hreg b hb (f.n.content.length + 1) 0 (by omega)
    simpa using h
  · intro p hp
    have hdrop : f.n.content.drop p = [] := List.drop_eq_nil_of_le hp
    simp [virtualFileDescriptor.Read, hreg, hb, hdrop]

/-- Witness for C6: on the concrete scenario tree, Open of /dir/file.txt
returns a handle at offset zero over the file node, reading to completion
with two-byte buffers yields exactly the five bytes hello, and a read
past the end transfers nothing and signals end of data. -/
theorem open_then_read_all_witness :
    fsDirFile.Open ("/dir/file.txt".toList) =
      some (Res.ok { node := fileFound.n, readPos := 0 }) ∧
    readToEnd 2 (fileFound.n.content.length + 1)
      { node := fileFound.n, readPos := 0 } = fileFound.n.content ∧
    fileFound.n.content = ("hello".toList) ∧
    virtualFileDescriptor.Read { node := fileFound.n, readPos := 5 } 2 =
      ([], { node := fileFound.n, readPos := 5 }, some Err.eof) :=
  have h := open_then_read_all fsDirFile ("/dir/file.txt".toList) fileFound 2
    rfl rfl (by decide)
  ⟨h.1, h.2.1, rfl, h.2.2 5 (by decide)⟩

/-- Witness for C5: the regular-file descriptor with content "q" passes
the mode validation and Set of "/a/b/c" with it fails with the
directory-disagreement panic, leaving the tree unchanged. -/
theorem set_under_regular_file_conflicts_witness :
    fsAB.Set ("/a/b/c".toList) (regDesc ("q".toList)) =
      (fsAB, some Err.isDirDisagreement) :=
  set_under_regular_file_conflicts (regDesc ("q".toList)) (by decide)

/-- Replacing the root leaves the root projection. -/
theorem root_update (fs : VirtualFileSystem) (R : Node) :
    ({ fs with root := R } : VirtualFileSystem).root = R := rfl

/-- Replacing the root does not change how a name is made absolute. -/
theorem abs_update (fs : VirtualFileSystem) (R : Node) (name : List Char) :
    ({ fs with root := R } : VirtualFileSystem).abs name = fs.abs name := by
  unfold VirtualFileSystem.abs
  cases name with
  | nil => rfl
  | cons a l => rfl

/-- setTerminal at a directory with a non-directory descriptor panics. -/
theorem setTerminal_disagree (vfile : VirtualFile) (P : Node)
    (hP : P.mode &&& ModeDir ≠ 0) (hv : vfile.mode &&& ModeDir = 0) :
    setTerminal vfile P = (P, some Err.isDirDisagreement) := by
  unfold setTerminal
  simp only []
  rw [if_pos (by simp [hP, hv])]

/-- C8 (amended: the walked path must not end in a separator, that is the
last slash-separated component of the absolute name is non-empty): for
every tree and every descriptor passing Set's mode validation, a second
identical Set call leaves the virtual filesystem tree exactly as the
first call left it. -/
theorem set_idempotent_no_trailing_sep (fs : VirtualFileSystem)
    (name : List Char) (vfile : VirtualFile)
    (hm : vfile.mode &&& (ModeType ^^^ setFlag vfile) = 0)
    (hlast : (splitComps ((fs.abs name).drop 1)).getLast? ≠ some []) :
    ((fs.Set name vfile).1.Set name vfile).1 = (fs.Set name vfile).1 := by
  rw [Set_walkNR fs name vfile hm]
  cases hw : walkNR fs.root (splitComps ((fs.abs name).drop 1)) [] with
  | panicked e =>
    simp only []
    show (fs.Set name vfile).1 = fs
    rw [Set_walkNR fs name vfile hm, hw]
  | enotdir =>
    simp only []
    show (fs.Set name vfile).1 = fs
    rw [Set_walkNR fs name vfile hm, hw]
  | term X τ =>
    obtain ⟨σ, hτσ, hσnil, hσlast⟩ := walkNR_term_path _ _ _ _ hw
    have hστ : σ = τ := by
      rw [hτσ]
      simp
    subst hστ
    by_cases hst : (setTerminal vfile X).2.isSome
    · simp only []
      rw [if_pos hst]
      show (fs.Set name vfile).1 = fs
      rw [Set_walkNR fs name vfile hm, hw]
      simp only []
      rw [if_pos hst]
    · simp only []
      rw [if_neg hst]
      have hnone : (setTerminal vfile X).2 = none := by
        cases hopt : (setTerminal vfile X).2 with
        | none => rfl
        | some e =>
          rw [hopt] at hst
          simp at hst
      obtain ⟨hname, hchil⟩ := setTerminal_keeps vfile X
      obtain ⟨hXm, hdiriff⟩ := setTerminal_none_mode vfile X hnone
      have hdir2 : (setTerminal vfile X).1.mode &&& ModeDir = 0 ↔
          X.mode &&& ModeDir = 0 := by
        rw [hXm]
        exact hdiriff.symm
      have hsd : (setTerminal vfile X).1.mode &&& ModeSymlink ≠ 0 →
          (setTerminal vfile X).1.mode &&& ModeDir = 0 := by
        intro hs
        rw [hXm] at hs ⊢
        exact symlink_descriptor_not_dir vfile hm hs
      show (VirtualFileSystem.Set { fs with root := updateAtPath fs.root σ (setTerminal vfile X).1 } name vfile).1 = { fs with root := updateAtPath fs.root σ (setTerminal vfile X).1 }
      rcases walkNR_update_term X (setTerminal vfile X).1 hname hchil hdir2
          hsd (splitComps ((fs.abs name).drop 1)) fs.root [] σ
          (by simpa using hw) with h1 | ⟨hs2, P, τ2, hPdir, h2⟩
      · simp only [List.nil_append] at h1
        rw [Set_walkNR { fs with root := updateAtPath fs.root σ (setTerminal vfile X).1 } name vfile hm, abs_update, root_update, h1]
        simp only []
        have hidem := setTerminal_none_idem vfile X hnone
        have hidem2 : (setTerminal vfile (setTerminal vfile X).1).2 = none := by
          rw [hidem]
        have hidem1 : (setTerminal vfile (setTerminal vfile X).1).1 =
            (setTerminal vfile X).1 := by
          rw [hidem]
        rw [if_neg (by rw [hidem2]; simp), hidem1]
        have hcond : σ = [] ∨ σ.getLast? =
            some (setTerminal vfile X).1.name := by
          by_cases hσe : σ = []
          · exact Or.inl hσe
          · refine Or.inr ?_
            rw [hname]
            exact hσlast hσe
        have hap := updateAtPath_append (setTerminal vfile X).1 σ fs.root
          (setTerminal vfile X).1 [] hcond
        rw [List.append_nil] at hap
        have hupd : updateAtPath (updateAtPath fs.root σ
            (setTerminal vfile X).1) σ (setTerminal vfile X).1 =
            updateAtPath fs.root σ (setTerminal vfile X).1 := by
          rw [hap]
          rfl
        rw [hupd]
      · rw [Set_walkNR { fs with root := updateAtPath fs.root σ (setTerminal vfile X).1 } name vfile hm, abs_update, root_update, h2]
        simp only []
        have hvd : vfile.mode &&& ModeDir = 0 := by
          rw [hXm] at hs2
          exact symlink_descriptor_not_dir vfile hm hs2
        rw [setTerminal_disagree vfile P hPdir hvd]
        have hcP : ((P, some Err.isDirDisagreement) :
            Node × Option Err).2.isSome = true := rfl
        rw [if_pos hcP]
  | notExist M comps2 τ =>
    obtain ⟨c, crest, hc2, hcne⟩ := walkNR_notExist_shape _ _ _ hw
    obtain ⟨σ, hτσ, hMnil, hMlast⟩ := walkNR_notExist_path _ _ _ _ hw
    have hστ : σ = τ := by
      rw [hτσ]
      simp
    subst hστ
    obtain ⟨hvalc, hMdir, hMlook⟩ := walkNR_notExist_lookup
      (splitComps ((fs.abs name).drop 1)) fs.root [] (hc2 ▸ hw)
    obtain ⟨t, hsuf⟩ := walkNR_notExist_suffix _ _ _ hw
    have hlast2 : comps2.getLast? ≠ some [] := by
      rw [hc2]
      rw [hc2] at hsuf
      rw [hsuf, getLast_append_cons] at hlast
      exact hlast
    obtain ⟨extra, hshape⟩ := createChildrenComps_shape vfile comps2 M
    have hMn2 : (createChildrenComps vfile M comps2).1.name = M.name := by
      rw [hshape, Node.name_mk]
    have hMm2 : (createChildrenComps vfile M comps2).1.mode = M.mode := by
      rw [hshape, Node.mode_mk]
    have hMch : (createChildrenComps vfile M comps2).1.children =
        M.children ++ extra := by
      rw [hshape, Node.children_mk]
    have hsim := walkNR_update_notExist M
      (createChildrenComps vfile M comps2).1 extra hMn2 hMm2 hMch
      (splitComps ((fs.abs name).drop 1)) fs.root [] σ comps2
      (by simpa using hw)
    simp only [List.nil_append] at hsim
    obtain ⟨g1, g2⟩ := walkNR_graft_fresh vfile comps2 M σ hMdir
      (Or.inr ⟨c, crest, hc2, hcne, hMlook⟩) (by rw [hc2]; simp) hlast2
    simp only []
    show (VirtualFileSystem.Set { fs with root := updateAtPath fs.root σ (createChildrenComps vfile M comps2).1 } name vfile).1 = { fs with root := updateAtPath fs.root σ (createChildrenComps vfile M comps2).1 }
    rw [Set_walkNR { fs with root := updateAtPath fs.root σ (createChildrenComps vfile M comps2).1 } name vfile hm, abs_update, root_update, hsim]
    cases hcc : (createChildrenComps vfile M comps2).2 with
    | some e =>
      rw [g1 e hcc]
    | none =>
      obtain ⟨L, σ2, hwg, hdisj⟩ := g2 hcc
      rw [hwg]
      rcases hdisj with ⟨hA1, hA2⟩ | ⟨hLdir, hvs⟩
      · simp only []
        have hA1s : (setTerminal vfile L).2 = none := by
          rw [hA1]
        have hA1f : (setTerminal vfile L).1 = L := by
          rw [hA1]
        rw [if_neg (by rw [hA1s]; simp), hA1f]
        have hcond : σ = [] ∨ σ.getLast? =
            some (createChildrenComps vfile M comps2).1.name := by
          by_cases hσe : σ = []
          · exact Or.inl hσe
          · refine Or.inr ?_
            rw [hMn2]
            exact hMlast hσe
        have hap := updateAtPath_append L σ fs.root
          (createChildrenComps vfile M comps2).1 σ2 hcond
        rw [hap, hA2]
      · simp only []
        have hvd : vfile.mode &&& ModeDir = 0 :=
          symlink_descriptor_not_dir vfile hm hvs
        rw [setTerminal_disagree vfile L hLdir hvd]
        have hcL : ((L, some Err.isDirDisagreement) :
            Node × Option Err).2.isSome = true := rfl
        rw [if_pos hcL]

/-- Witness for C8: the regular-file descriptor with content "x" and
injected error 7 passes the mode validation, the path "/a" has no
trailing separator, and the second Set call returns the tree of the
first. -/
theorem set_idempotent_no_trailing_sep_witness :
    ({ content := ['x'], mode := 0, error := some 7 } : VirtualFile).mode &&&
      (ModeType ^^^
        setFlag { content := ['x'], mode := 0, error := some 7 }) = 0 ∧
    (splitComps ((emptyVFS.abs ("/a".toList)).drop 1)).getLast? ≠ some [] ∧
    ((emptyVFS.Set ("/a".toList)
          { content := ['x'], mode := 0, error := some 7 }).1.Set
        ("/a".toList) { content := ['x'], mode := 0, error := some 7 }).1 =
      (emptyVFS.Set ("/a".toList)
        { content := ['x'], mode := 0, error := some 7 }).1 :=
  ⟨by decide, by decide,
    set_idempotent_no_trailing_sep emptyVFS ("/a".toList)
      { content := ['x'], mode := 0, error := some 7 } (by decide)
      (by decide)⟩

/-- C8: counterexample to the claim as stated.  Set with the
trailing-separator path "/a/" and a directory descriptor carrying
injected error 5 is accepted (returns no panic value) on both of two
successive identical calls, yet the trees differ observably: after the
first call the entry "a" exists with no injected error (the descriptor
was dropped), after the second call it carries the injected error. -/
theorem set_trailing_sep_not_idempotent :
    (emptyVFS.Set ("/a/".toList)
        { content := [], mode := ModeDir, error := some 5 }).2 = none ∧
    ((emptyVFS.Set ("/a/".toList)
          { content := [], mode := ModeDir, error := some 5 }).1.Set
        ("/a/".toList)
        { content := [], mode := ModeDir, error := some 5 }).2 = none ∧
    ((emptyVFS.Set ("/a/".toList)
        { content := [], mode := ModeDir, error := some 5 }).1.root.dirLookup
        ['a']).map Node.err = some none ∧
    (((emptyVFS.Set ("/a/".toList)
          { content := [], mode := ModeDir, error := some 5 }).1.Set
        ("/a/".toList)
        { content := [], mode := ModeDir, error := some 5 }).1.root.dirLookup
        ['a']).map Node.err = some (some (Err.injected 5)) := by
  decide

end KubeComposeFs
